import Mathlib

/-!
# Verification of the TextMaze maze-generation core (`src/textMaze.py`)

Shallow embedding of the `MazeGenerator` class and its helpers
(`generate`, `_generate_base_maze`, `_add_safe_walls`, `_validate_maze`,
`_generate_fallback_maze`).

Conventions of the embedding:
* Cell markers: `'墙'` = `Cell.wall`, `'　'` = `Cell.openC`,
  `'我'` = `Cell.player`, `'门'` = `Cell.door`.
* A grid (`self.maze`) is a `List (List Cell)`; reads out of range yield
  `Cell.wall` (the Python code always bounds-checks before reading, so the
  default is never consulted on the executed paths); `List.set` out of range
  is the identity, likewise never exercised by the executed paths.
* Python's `random.randint(0, n-1)` is modelled by `r.pick t % n` for an
  arbitrary function `pick : Nat → Nat` and a call counter `t` threaded
  through the computation; every sequence of in-range choices of the real
  random source is realised by some `pick`.  `random.shuffle` is modelled by
  an arbitrary function `shuffle : Nat → List Pos → List Pos`; the fact that
  a real shuffle returns a permutation of its input is an explicit
  hypothesis (`RandomSource.Lawful`) where a theorem needs it.
* Python coordinate arithmetic (`x + dx` with negative `dx`) is done in `ℤ`
  exactly as in the source, with the same bounds guards, and converted to
  `ℕ` only after the guard has ensured non-negativity.
* The two unbounded `while` loops of the source (the frontier loop of
  `_generate_base_maze` and the BFS loop of `_validate_maze`) are embedded
  with an explicit fuel argument; the fuel supplied by the wrappers is
  proved generous enough that the `fuel = 0` branch is never the one that
  stops the loop (the loops stop exactly when the Python loops do).
-/

inductive Cell : Type
  | wall   -- '墙'
  | openC  -- '　'
  | player -- '我'
  | door   -- '门'
  deriving DecidableEq, Repr

abbrev Pos : Type := Nat × Nat

abbrev Maze : Type := List (List Cell)

/-- Read `self.maze[i][j]`; out-of-range reads default to `Cell.wall`. -/
def getCell (m : Maze) (i j : Nat) : Cell := (m.getD i []).getD j Cell.wall

/-- Write `self.maze[i][j] = c`; out-of-range writes are the identity. -/
def setCell (m : Maze) (i j : Nat) (c : Cell) : Maze :=
  m.set i ((m.getD i []).set j c)

/-- `[['墙' for _ in range(width)] for _ in range(height)]`. -/
def allWall (height width : Nat) : Maze :=
  List.replicate height (List.replicate width Cell.wall)

/-- The model of Python's `random` module used by `MazeGenerator`:
an arbitrary stream of `randint` choices and an arbitrary shuffling
function, each indexed by a call counter. -/
structure RandomSource where
  pick : Nat → Nat
  shuffle : Nat → List Pos → List Pos

/-- A real `random.shuffle` always returns a permutation of its input. -/
def RandomSource.Lawful (r : RandomSource) : Prop :=
  ∀ t l, (r.shuffle t l).Perm l

/-- The mutable state of a `MazeGenerator` object: `self.maze`,
`self._path`, plus the counter of random-source calls made so far. -/
structure GenState where
  maze : Maze
  path : List Pos
  t : Nat

/-- `[(-1,0),(1,0),(0,-1),(0,1)]`, the direction list of the source. -/
def dirs4 : List (Int × Int) := [(-1,0), (1,0), (0,-1), (0,1)]

/-- `[(-2,0),(2,0),(0,-2),(0,2)]`, the frontier direction list. -/
def carveDirs : List (Int × Int) := [(-2,0), (2,0), (0,-2), (0,2)]

/-- The neighbours `_validate_maze` pushes when it processes `(x, y)`:
in-bounds, not a wall, not yet visited (the visited set already holds
`(x, y)` itself at that point). -/
def bfsNbrs (height width : Nat) (m : Maze) (x y : Nat)
    (visited : Finset Pos) : List Pos :=
  dirs4.filterMap (fun d =>
    if 0 ≤ (x : Int) + d.1 ∧ (x : Int) + d.1 < (height : Int) ∧
        0 ≤ (y : Int) + d.2 ∧ (y : Int) + d.2 < (width : Int) ∧
        getCell m ((x : Int) + d.1).toNat ((y : Int) + d.2).toNat ≠ Cell.wall ∧
        (((x : Int) + d.1).toNat, ((y : Int) + d.2).toNat) ∉ visited then
      some (((x : Int) + d.1).toNat, ((y : Int) + d.2).toNat)
    else none)

/-- One step of `_validate_maze`'s BFS loop (`while queue:`), with fuel.
`e` is `self.exit`. Mirrors the source line by line: pop left; success
test; visited test; mark visited; push the remaining 4-neighbours. -/
def bfsAux (height width : Nat) (m : Maze) (e : Pos) :
    Nat → List Pos → Finset Pos → Bool
  | 0, _, _ => false
  | _ + 1, [], _ => false
  | fuel + 1, (x, y) :: q, visited =>
    if (x, y) = e then true
    else if (x, y) ∈ visited then bfsAux height width m e fuel q visited
    else bfsAux height width m e fuel
      (q ++ bfsNbrs height width m x y (insert (x, y) visited))
      (insert (x, y) visited)

/-- `_validate_maze` for start `s` and exit `e`: BFS from `s` with an
initially empty visited set.  The fuel `5*height*width + 1` is proved
sufficient below. -/
def validate_maze (height width : Nat) (m : Maze) (s e : Pos) : Bool :=
  bfsAux height width m e (5 * (height * width) + 1) [s] ∅

/-- A frontier entry `(nx, ny, parent)` of `_generate_base_maze`. -/
abbrev FrontierEntry : Type := Pos × Pos

/-- The midpoint cell `((x + parent[0]) // 2, (y + parent[1]) // 2)`
opened between a carved target and its parent. -/
def midCell (e : FrontierEntry) : Pos :=
  ((e.1.1 + e.2.1) / 2, (e.1.2 + e.2.2) / 2)

/-- The new frontier entries pushed after carving `(x, y)`: its distance-2
neighbours strictly inside the border that are still walls, tagged with
`(x, y)` as parent. -/
def carveNbrs (height width : Nat) (m : Maze) (x y : Nat) :
    List FrontierEntry :=
  carveDirs.filterMap (fun d =>
    if 0 < (x : Int) + d.1 ∧ (x : Int) + d.1 < (height : Int) - 1 ∧
        0 < (y : Int) + d.2 ∧ (y : Int) + d.2 < (width : Int) - 1 ∧
        getCell m ((x : Int) + d.1).toNat ((y : Int) + d.2).toNat = Cell.wall then
      some ((((x : Int) + d.1).toNat, ((y : Int) + d.2).toNat), (x, y))
    else none)

/-- The `while frontier:` loop of `_generate_base_maze`, with fuel.
Pops a uniformly random entry; if the target is still a wall, opens the
midpoint to the parent and the target, records the target in `_path`, and
pushes the target's still-walled distance-2 neighbours. -/
def carveAux (height width : Nat) (r : RandomSource) :
    Nat → List FrontierEntry → Maze → List Pos → Nat →
      Maze × List Pos × Nat
  | 0, _, m, p, t => (m, p, t)
  | _ + 1, [], m, p, t => (m, p, t)
  | fuel + 1, f :: fs, m, p, t =>
    let e := (f :: fs).getD (r.pick t % (f :: fs).length) ((0, 0), (0, 0))
    let frontier' := (f :: fs).eraseIdx (r.pick t % (f :: fs).length)
    if getCell m e.1.1 e.1.2 = Cell.wall then
      let m2 := setCell (setCell m (midCell e).1 (midCell e).2 Cell.openC)
        e.1.1 e.1.2 Cell.openC
      carveAux height width r fuel
        (frontier' ++ carveNbrs height width m2 e.1.1 e.1.2)
        m2 (p ++ [e.1]) (t + 1)
    else
      carveAux height width r fuel frontier' m p (t + 1)

/-- The initial frontier of `_generate_base_maze`: the four cells at
distance 2 from the start `(1, 1)` that lie strictly inside the border,
with the start as parent. -/
def carveSeeds (height width : Nat) : List FrontierEntry :=
  dirs4.filterMap (fun d =>
    if 0 < (1 : Int) + d.1 * 2 ∧ (1 : Int) + d.1 * 2 < (height : Int) - 1 ∧
        0 < (1 : Int) + d.2 * 2 ∧ (1 : Int) + d.2 * 2 < (width : Int) - 1 then
      some ((((1 : Int) + d.1 * 2).toNat, ((1 : Int) + d.2 * 2).toNat), (1, 1))
    else none)

/-- `_generate_base_maze`: reset the grid to all walls, mark the start,
seed the frontier, run the carving loop, then force the exit marker.
Note that `self._path` is *not* reset here (it is initialised only in
`__init__`). -/
def generate_base_maze (height width : Nat) (r : RandomSource)
    (s : GenState) : GenState :=
  { maze := setCell (carveAux height width r (5 * (height * width) + 4)
      (carveSeeds height width)
      (setCell (allWall height width) 1 1 Cell.player) s.path s.t).1
      (height - 2) (width - 2) Cell.door,
    path := (carveAux height width r (5 * (height * width) + 4)
      (carveSeeds height width)
      (setCell (allWall height width) 1 1 Cell.player) s.path s.t).2.1,
    t := (carveAux height width r (5 * (height * width) + 4)
      (carveSeeds height width)
      (setCell (allWall height width) 1 1 Cell.player) s.path s.t).2.2 }

/-- The candidate list of `_add_safe_walls`: interior cells that are open
(`'　'`) and not on `self._path`, in row-major order. -/
def wallCandidates (height width : Nat) (m : Maze) (path : List Pos) :
    List Pos :=
  (List.range' 1 (height - 2)).flatMap (fun i =>
    (List.range' 1 (width - 2)).filterMap (fun j =>
      if getCell m i j = Cell.openC ∧ (i, j) ∉ path then some (i, j)
      else none))

/-- The trial-and-rollback loop of `_add_safe_walls` over the shuffled
candidate list: stop once `wall_count` walls are placed; otherwise
tentatively wall the cell, keep it if the maze still validates, restore the
saved original value if not.  Returns the final maze and `added_walls`. -/
def addWallsLoop (height width : Nat) (s e : Pos) (wallCount : Nat) :
    List Pos → Maze → Nat → Maze × Nat
  | [], m, added => (m, added)
  | (x, y) :: rest, m, added =>
    if wallCount ≤ added then (m, added)
    else
      let original := getCell m x y
      let m' := setCell m x y Cell.wall
      if validate_maze height width m' s e then
        addWallsLoop height width s e wallCount rest m' (added + 1)
      else
        addWallsLoop height width s e wallCount rest (setCell m' x y original) added

/-- `_add_safe_walls` for start `s`, exit `e`, difficulty `d`: collect the
candidates, compute `wall_count = int(len(candidates) * difficulty)`
(for the non-negative products arising from `difficulty ∈ [0,1]` Python's
`int` truncation is the floor; `Int.toNat` renders Python's
`added >= wall_count` comparison faithfully also for a negative count),
shuffle, and run the loop.  Returns the new maze, `added_walls`, and the
advanced random counter. -/
def add_safe_walls (height width : Nat) (s e : Pos) (d : ℚ)
    (r : RandomSource) (m : Maze) (path : List Pos) (t : Nat) :
    Maze × Nat × Nat :=
  ((addWallsLoop height width s e
      ((((wallCandidates height width m path).length : ℚ) * d).floor).toNat
      (r.shuffle t (wallCandidates height width m path)) m 0).1,
   (addWallsLoop height width s e
      ((((wallCandidates height width m path).length : ℚ) * d).floor).toNat
      (r.shuffle t (wallCandidates height width m path)) m 0).2,
   t + 1)

/-- The double loop of `_generate_fallback_maze`: force every interior
odd/odd cell open. -/
def combFold (width : Nat) (rows : List Nat) (m : Maze) : Maze :=
  rows.foldl (fun m i =>
    (List.range' 1 (width - 2)).foldl (fun m j =>
      if i % 2 = 1 ∧ j % 2 = 1 then setCell m i j Cell.openC else m) m) m

/-- `_generate_fallback_maze`: on the grid left behind by the failed
attempts, force every interior odd/odd cell open, then force the start and
exit markers.  (It does not reset the other cells.) -/
def generate_fallback_maze (height width : Nat) (s : GenState) : GenState :=
  { s with maze :=
      (setCell
        (setCell (combFold width (List.range' 1 (height - 2)) s.maze) 1 1 Cell.player)
        (height - 2) (width - 2) Cell.door) }

/-- The `for _ in range(max_attempts):` loop of `generate`, by the number
of attempts remaining.  Each attempt carves a base maze, validates, adds
safe walls, re-validates, and returns on success; when the attempts are
exhausted the deterministic fallback grid is returned. -/
def generateLoop (height width : Nat) (d : ℚ) (r : RandomSource) :
    Nat → GenState → Maze × GenState
  | 0, s => ((generate_fallback_maze height width s).maze,
      generate_fallback_maze height width s)
  | n + 1, s =>
    let s1 := generate_base_maze height width r s
    if validate_maze height width s1.maze (1, 1) (height - 2, width - 2) then
      let w := add_safe_walls height width (1, 1) (height - 2, width - 2) d r
        s1.maze s1.path s1.t
      let s2 : GenState := { maze := w.1, path := s1.path, t := w.2.2 }
      if validate_maze height width s2.maze (1, 1) (height - 2, width - 2) then
        (s2.maze, s2)
      else generateLoop height width d r n s2
    else generateLoop height width d r n s1

/-- `MazeGenerator(width, height, difficulty)` followed by `generate()`:
the initial state has an all-wall grid, an empty `_path`, and the random
counter at zero; `max_attempts = 10`.  Returns the grid handed to the
caller together with the final generator state. -/
def generateS (height width : Nat) (d : ℚ) (r : RandomSource) :
    Maze × GenState :=
  generateLoop height width d r 10 { maze := allWall height width, path := [], t := 0 }

/-- `MazeGenerator.generate`: the grid returned to the caller. -/
def generate (height width : Nat) (d : ℚ) (r : RandomSource) : Maze :=
  (generateS height width d r).1

/-- A concrete random source: `randint` always answers 0 and `shuffle`
leaves the list unchanged. -/
def rng0 : RandomSource := { pick := fun _ => 0, shuffle := fun _ l => l }

/-! ## Basic grid lemmas -/

/-- A grid with `height` rows of `width` cells each — the shape
`MazeGenerator.__init__` establishes and every mutation preserves. -/
def Shape (height width : Nat) (m : Maze) : Prop :=
  m.length = height ∧ ∀ row ∈ m, row.length = width

theorem getD_set_self {α : Type} : ∀ (l : List α) (i : Nat), i < l.length →
    ∀ (a d : α), (l.set i a).getD i d = a
  | _ :: _, 0, _, _, _ => rfl
  | _ :: l, i + 1, h, a, d => getD_set_self l i (by simpa using h) a d

theorem getD_set_ne {α : Type} : ∀ (l : List α) (i i' : Nat), i ≠ i' →
    ∀ (a d : α), (l.set i a).getD i' d = l.getD i' d
  | [], _, _, _, _, _ => rfl
  | _ :: _, 0, 0, h, _, _ => absurd rfl h
  | _ :: _, 0, _ + 1, _, _, _ => rfl
  | _ :: _, _ + 1, 0, _, _, _ => rfl
  | _ :: l, i + 1, i' + 1, h, a, d => getD_set_ne l i i' (by omega) a d

theorem set_getD_self {α : Type} : ∀ (l : List α) (i : Nat), i < l.length →
    ∀ (d : α), l.set i (l.getD i d) = l
  | _ :: _, 0, _, _ => rfl
  | b :: l, i + 1, h, d =>
    congrArg (b :: ·) (set_getD_self l i (by simpa using h) d)

theorem getD_oob {α : Type} : ∀ (l : List α) (i : Nat), l.length ≤ i →
    ∀ (d : α), l.getD i d = d
  | [], _, _, _ => rfl
  | _ :: l, i + 1, h, d => getD_oob l i (by simpa using h) d

theorem shape_allWall (height width : Nat) : Shape height width (allWall height width) := by
  refine ⟨List.length_replicate .., fun row hrow => ?_⟩
  rw [List.eq_of_mem_replicate hrow]
  exact List.length_replicate ..

theorem shape_row {height width : Nat} {m : Maze} (hs : Shape height width m)
    {i : Nat} (hi : i < height) : (m.getD i []).length = width := by
  obtain ⟨hlen, hrow⟩ := hs
  have hi' : i < m.length := by omega
  rw [List.getD_eq_getElem _ _ hi']
  exact hrow _ (List.getElem_mem hi')

theorem shape_setCell {height width : Nat} {m : Maze} (hs : Shape height width m)
    (i j : Nat) (c : Cell) : Shape height width (setCell m i j c) := by
  by_cases hi : i < m.length
  · obtain ⟨hlen, hrow⟩ := hs
    refine ⟨by simpa [setCell] using hlen, fun row hr => ?_⟩
    rcases List.mem_or_eq_of_mem_set hr with h | h
    · exact hrow row h
    · subst h
      rw [List.length_set, List.getD_eq_getElem _ _ hi]
      exact hrow _ (List.getElem_mem hi)
  · unfold setCell
    rw [List.set_eq_of_length_le (Nat.le_of_not_lt hi)]
    exact hs

theorem getCell_setCell_self {height width : Nat} {m : Maze} (hs : Shape height width m)
    {i j : Nat} (hi : i < height) (hj : j < width) (c : Cell) :
    getCell (setCell m i j c) i j = c := by
  have hi' : i < m.length := by have := hs.1; omega
  have hj' : j < (m.getD i []).length := by rw [shape_row hs hi]; omega
  unfold getCell setCell
  rw [getD_set_self _ _ (by simpa using hi'), getD_set_self _ _ hj']

theorem getCell_setCell_ne {m : Maze} {i j i' j' : Nat}
    (h : i ≠ i' ∨ j ≠ j') (c : Cell) :
    getCell (setCell m i j c) i' j' = getCell m i' j' := by
  unfold getCell setCell
  by_cases hii : i = i'
  · subst hii
    replace h : j ≠ j' := h.resolve_left (by simp)
    by_cases hi' : i < m.length
    · rw [getD_set_self _ _ (by simpa using hi'), getD_set_ne _ _ _ h]
    · rw [List.set_eq_of_length_le (Nat.le_of_not_lt hi')]
  · rw [getD_set_ne _ _ _ hii]

theorem setCell_setCell_restore (m : Maze) (i j : Nat) (c : Cell) :
    setCell (setCell m i j c) i j (getCell m i j) = m := by
  by_cases hi : i < m.length
  · unfold setCell getCell
    rw [getD_set_self _ _ (by simpa using hi), List.set_set, List.set_set]
    by_cases hj : j < (m.getD i []).length
    · rw [set_getD_self _ _ hj, set_getD_self _ _ hi]
    · rw [List.set_eq_of_length_le (show (m.getD i []).length ≤ j by omega),
        set_getD_self _ _ hi]
  · unfold setCell
    rw [List.set_eq_of_length_le (Nat.le_of_not_lt hi),
      List.set_eq_of_length_le (Nat.le_of_not_lt hi)]

theorem getCell_oob {height width : Nat} {m : Maze} (hs : Shape height width m)
    {i j : Nat} (h : height ≤ i ∨ width ≤ j) : getCell m i j = Cell.wall := by
  unfold getCell
  rcases h with h | h
  · have hrow : m.getD i [] = [] :=
      List.getD_eq_default _ _ (by have := hs.1; omega)
    rw [hrow]
    rfl
  · by_cases hi : i < height
    · exact getD_oob (m.getD i []) j (by rw [shape_row hs hi]; omega) Cell.wall
    · have hrow : m.getD i [] = [] :=
        List.getD_eq_default _ _ (by have := hs.1; omega)
      rw [hrow]
      rfl

theorem getCell_allWall (height width i j : Nat) :
    getCell (allWall height width) i j = Cell.wall := by
  unfold getCell allWall
  by_cases hi : i < height
  · have hrow : (List.replicate height (List.replicate width Cell.wall)).getD i []
        = List.replicate width Cell.wall := by
      rw [List.getD_eq_getElem _ _ (by simpa using hi), List.getElem_replicate]
    rw [hrow]
    by_cases hj : j < width
    · rw [List.getD_eq_getElem _ _ (by simpa using hj), List.getElem_replicate]
    · exact getD_oob _ _ (by simpa using Nat.le_of_not_lt hj) _
  · have hrow : (List.replicate height (List.replicate width Cell.wall)).getD i [] = [] :=
      List.getD_eq_default _ _ (by simpa using Nat.le_of_not_lt hi)
    rw [hrow]
    rfl

/-- If `x` occurs in `l` at some position other than index `i`, it survives
`eraseIdx i`. -/
theorem mem_eraseIdx_of_ne {α : Type} : ∀ (l : List α) (i : Nat) (h : i < l.length)
    (x : α), x ∈ l → x ≠ l.get ⟨i, h⟩ → x ∈ l.eraseIdx i
  | a :: l, 0, _, x, hx, hne => by
    simpa using (List.mem_cons.1 hx).resolve_left (by simpa using hne)
  | a :: l, i + 1, h, x, hx, hne => by
    rcases List.mem_cons.1 hx with rfl | hx
    · exact List.mem_cons_self ..
    · exact List.mem_cons_of_mem _
        (mem_eraseIdx_of_ne l i (by simpa using h) x hx (by simpa using hne))

/-! ## Reachability

`Reach height width m s p` : there is a 4-directional path from `s` to `p`
whose every cell after `s` is in bounds and not a wall — exactly the notion
of reachability the BFS of `_validate_maze` decides (the BFS never examines
the cell under `s` itself). -/

/-- 4-directional grid adjacency. -/
def Adj (p q : Pos) : Prop :=
  (p.1 = q.1 ∧ (p.2 + 1 = q.2 ∨ q.2 + 1 = p.2)) ∨
  (p.2 = q.2 ∧ (p.1 + 1 = q.1 ∨ q.1 + 1 = p.1))

instance (p q : Pos) : Decidable (Adj p q) := by unfold Adj; infer_instance

theorem Adj.symm {p q : Pos} (h : Adj p q) : Adj q p := by
  unfold Adj at *
  omega

inductive Reach (height width : Nat) (m : Maze) (s : Pos) : Pos → Prop
  | refl : Reach height width m s s
  | step {p q : Pos} : Reach height width m s p → Adj p q →
      q.1 < height → q.2 < width → getCell m q.1 q.2 ≠ Cell.wall →
      Reach height width m s q

theorem Reach.trans {height width : Nat} {m : Maze} {a b c : Pos}
    (h1 : Reach height width m a b) (h2 : Reach height width m b c) :
    Reach height width m a c := by
  induction h2 with
  | refl => exact h1
  | step _ hadj hq1 hq2 hw ih => exact ih.step hadj hq1 hq2 hw

/-- Reachability is monotone along any change that keeps non-wall cells
non-wall. -/
theorem Reach.mono {height width : Nat} {m m' : Maze} {s p : Pos}
    (hm : ∀ i j, i < height → j < width →
      getCell m i j ≠ Cell.wall → getCell m' i j ≠ Cell.wall)
    (h : Reach height width m s p) : Reach height width m' s p := by
  induction h with
  | refl => exact .refl
  | step _ hadj hq1 hq2 hw ih => exact ih.step hadj hq1 hq2 (hm _ _ hq1 hq2 hw)

/-- A path can be walked backwards when its source cell is itself in
bounds and not a wall. -/
theorem Reach.rev {height width : Nat} {m : Maze} {s p : Pos}
    (h : Reach height width m s p) (h1 : s.1 < height) (h2 : s.2 < width)
    (hw : getCell m s.1 s.2 ≠ Cell.wall) : Reach height width m p s := by
  induction h with
  | refl => exact .refl
  | @step p' q hr hadj hq1 hq2 hqw ih =>
    have hp' : p'.1 < height ∧ p'.2 < width ∧ getCell m p'.1 p'.2 ≠ Cell.wall := by
      cases hr with
      | refl => exact ⟨h1, h2, hw⟩
      | step _ _ ha hb hc => exact ⟨ha, hb, hc⟩
    exact Reach.trans (Reach.step .refl hadj.symm hp'.1 hp'.2.1 hp'.2.2) ih

/-! ## Correctness of `_validate_maze`'s BFS -/

theorem mem_bfsNbrs {height width x y : Nat} {m : Maze} {visited : Finset Pos}
    {p : Pos} :
    p ∈ bfsNbrs height width m x y visited ↔
      Adj (x, y) p ∧ p.1 < height ∧ p.2 < width ∧
        getCell m p.1 p.2 ≠ Cell.wall ∧ p ∉ visited := by
  obtain ⟨a, b⟩ := p
  simp only [bfsNbrs, List.mem_filterMap, dirs4, List.mem_cons,
    List.not_mem_nil, or_false]
  constructor
  · rintro ⟨d, hd, hf⟩
    rcases hd with rfl | rfl | rfl | rfl
    all_goals
      rw [Option.ite_none_right_eq_some, Option.some.injEq] at hf
      obtain ⟨⟨h1, h2, h3, h4, h5, h6⟩, hp⟩ := hf
      rw [Prod.mk.injEq] at hp
      obtain ⟨rfl, rfl⟩ := hp
      refine ⟨?_, by omega, by omega, h5, h6⟩
      unfold Adj
      simp only []
      omega
  · rintro ⟨hadj, h1, h2, h3, h4⟩
    unfold Adj at hadj
    simp only [] at hadj
    have hcase : ((x : Int) + (-1) = (a : Int) ∧ (y : Int) = (b : Int)) ∨
        ((x : Int) + 1 = (a : Int) ∧ (y : Int) = (b : Int)) ∨
        ((x : Int) = (a : Int) ∧ (y : Int) + (-1) = (b : Int)) ∨
        ((x : Int) = (a : Int) ∧ (y : Int) + 1 = (b : Int)) := by omega
    rcases hcase with ⟨hx, hy⟩ | ⟨hx, hy⟩ | ⟨hx, hy⟩ | ⟨hx, hy⟩
    · refine ⟨(-1, 0), by simp, ?_⟩
      rw [Option.ite_none_right_eq_some, Option.some.injEq]
      have hxa : ((x : Int) + (-1, 0).1).toNat = a := by simp only []; omega
      have hyb : ((y : Int) + (-1, 0).2).toNat = b := by simp only []; omega
      rw [hxa, hyb]
      refine ⟨⟨by simp only []; omega, by simp only []; omega,
        by simp only []; omega, by simp only []; omega, h3, h4⟩, rfl⟩
    · refine ⟨(1, 0), by simp, ?_⟩
      rw [Option.ite_none_right_eq_some, Option.some.injEq]
      have hxa : ((x : Int) + ((1 : Int), (0 : Int)).1).toNat = a := by
        simp only []
        omega
      have hyb : ((y : Int) + ((1 : Int), (0 : Int)).2).toNat = b := by
        simp only []
        omega
      rw [hxa, hyb]
      refine ⟨⟨by simp only []; omega, by simp only []; omega,
        by simp only []; omega, by simp only []; omega, h3, h4⟩, rfl⟩
    · refine ⟨(0, -1), by simp, ?_⟩
      rw [Option.ite_none_right_eq_some, Option.some.injEq]
      have hxa : ((x : Int) + ((0 : Int), (-1 : Int)).1).toNat = a := by
        simp only []
        omega
      have hyb : ((y : Int) + ((0 : Int), (-1 : Int)).2).toNat = b := by
        simp only []
        omega
      rw [hxa, hyb]
      refine ⟨⟨by simp only []; omega, by simp only []; omega,
        by simp only []; omega, by simp only []; omega, h3, h4⟩, rfl⟩
    · refine ⟨(0, 1), by simp, ?_⟩
      rw [Option.ite_none_right_eq_some, Option.some.injEq]
      have hxa : ((x : Int) + ((0 : Int), (1 : Int)).1).toNat = a := by
        simp only []
        omega
      have hyb : ((y : Int) + ((0 : Int), (1 : Int)).2).toNat = b := by
        simp only []
        omega
      rw [hxa, hyb]
      refine ⟨⟨by simp only []; omega, by simp only []; omega,
        by simp only []; omega, by simp only []; omega, h3, h4⟩, rfl⟩

theorem length_bfsNbrs_le (height width : Nat) (m : Maze) (x y : Nat)
    (visited : Finset Pos) : (bfsNbrs height width m x y visited).length ≤ 4 :=
  (List.length_filterMap_le _ _).trans (by simp [dirs4])

/-- The positions of a `height × width` grid. -/
def allPos (height width : Nat) : Finset Pos :=
  Finset.range height ×ˢ Finset.range width

theorem mem_allPos {height width : Nat} {p : Pos} :
    p ∈ allPos height width ↔ p.1 < height ∧ p.2 < width := by
  simp [allPos, Finset.mem_product]

/-- If `bfsAux` answers `true` and every queued position is reachable,
the exit is reachable. -/
theorem bfsAux_true {height width : Nat} {m : Maze} {s e : Pos} :
    ∀ (fuel : Nat) (q : List Pos) (visited : Finset Pos),
      (∀ p ∈ q, Reach height width m s p) →
      bfsAux height width m e fuel q visited = true →
      Reach height width m s e := by
  intro fuel
  induction fuel with
  | zero =>
    intro q visited _ hb
    simp [bfsAux] at hb
  | succ fuel ih =>
    intro q visited hq hb
    match q with
    | [] => simp [bfsAux] at hb
    | (x, y) :: rest =>
      rw [bfsAux] at hb
      by_cases he : ((x : Nat), (y : Nat)) = e
      · exact he ▸ hq (x, y) (List.mem_cons_self _ _)
      · rw [if_neg he] at hb
        by_cases hv : ((x : Nat), (y : Nat)) ∈ visited
        · rw [if_pos hv] at hb
          exact ih rest visited (fun p hp => hq p (List.mem_cons_of_mem _ hp)) hb
        · rw [if_neg hv] at hb
          refine ih _ _ ?_ hb
          intro p hp
          rcases List.mem_append.1 hp with hp | hp
          · exact hq p (List.mem_cons_of_mem _ hp)
          · obtain ⟨hadj, hb1, hb2, hb3, _⟩ := mem_bfsNbrs.1 hp
            exact (hq (x, y) (List.mem_cons_self _ _)).step hadj hb1 hb2 hb3

/-- A visited set that contains the start, misses the exit, and is closed
under traversable steps witnesses unreachability. -/
theorem not_reach_of_closed {height width : Nat} {m : Maze} {s e : Pos}
    {visited : Finset Pos}
    (hcl : ∀ v ∈ visited, ∀ p : Pos, Adj v p → p.1 < height → p.2 < width →
      getCell m p.1 p.2 ≠ Cell.wall → p ∈ visited)
    (hs : s ∈ visited) (he : e ∉ visited) : ¬ Reach height width m s e := by
  intro hr
  have hall : ∀ p, Reach height width m s p → p ∈ visited := by
    intro p hp
    induction hp with
    | refl => exact hs
    | step hr' hadj ha1 ha2 ha3 ih => exact hcl _ ih _ hadj ha1 ha2 ha3
  exact he (hall e hr)

/-- If `bfsAux` answers `false`, given the loop invariants and enough fuel,
the exit is not reachable. -/
theorem bfsAux_false {height width : Nat} {m : Maze} {s e : Pos} :
    ∀ (fuel : Nat) (q : List Pos) (visited : Finset Pos),
      q.length + 5 * ((allPos height width \ visited).card) ≤ fuel →
      (∀ p ∈ q, p.1 < height ∧ p.2 < width) →
      (∀ v ∈ visited, ∀ p : Pos, Adj v p → p.1 < height → p.2 < width →
        getCell m p.1 p.2 ≠ Cell.wall → p ∈ visited ∨ p ∈ q) →
      (s ∈ visited ∨ s ∈ q) →
      e ∉ visited →
      bfsAux height width m e fuel q visited = false →
      ¬ Reach height width m s e := by
  intro fuel
  induction fuel with
  | zero =>
    intro q visited hfuel hq hcl hs he _
    have hq0 : q = [] := by
      cases q with
      | nil => rfl
      | cons a l => simp at hfuel
    subst hq0
    exact not_reach_of_closed
      (fun v hv p hadj h1 h2 h3 => ((hcl v hv p hadj h1 h2 h3).resolve_right
        (by simp))) (hs.resolve_right (by simp)) he
  | succ fuel ih =>
    intro q visited hfuel hq hcl hs he hb
    match q with
    | [] =>
      exact not_reach_of_closed
        (fun v hv p hadj h1 h2 h3 => ((hcl v hv p hadj h1 h2 h3).resolve_right
          (by simp))) (hs.resolve_right (by simp)) he
    | (x, y) :: rest =>
      rw [bfsAux] at hb
      by_cases hxe : ((x : Nat), (y : Nat)) = e
      · rw [if_pos hxe] at hb
        cases hb
      · rw [if_neg hxe] at hb
        by_cases hv : ((x : Nat), (y : Nat)) ∈ visited
        · rw [if_pos hv] at hb
          refine ih rest visited (by simp at hfuel ⊢; omega)
            (fun p hp => hq p (List.mem_cons_of_mem _ hp)) ?_ ?_ he hb
          · intro v hv' p hadj h1 h2 h3
            rcases hcl v hv' p hadj h1 h2 h3 with h | h
            · exact Or.inl h
            · rcases List.mem_cons.1 h with rfl | h
              · exact Or.inl hv
              · exact Or.inr h
          · rcases hs with h | h
            · exact Or.inl h
            · rcases List.mem_cons.1 h with rfl | h
              · exact Or.inl hv
              · exact Or.inr h
        · rw [if_neg hv] at hb
          have hxy : ((x : Nat), (y : Nat)) ∈ allPos height width \ visited := by
            rw [Finset.mem_sdiff, mem_allPos]
            exact ⟨hq _ (List.mem_cons_self _ _), hv⟩
          have hcard : (allPos height width \ insert (x, y) visited).card + 1 ≤
              (allPos height width \ visited).card := by
            have hss : allPos height width \ insert (x, y) visited ⊂
                allPos height width \ visited := by
              refine (Finset.ssubset_iff_of_subset
                (Finset.sdiff_subset_sdiff (le_refl _)
                  (Finset.subset_insert ..))).2 ⟨(x, y), hxy, ?_⟩
              rw [Finset.mem_sdiff]
              simp
            exact Finset.card_lt_card hss
          refine ih (rest ++ bfsNbrs height width m x y (insert (x, y) visited))
            (insert (x, y) visited) ?_ ?_ ?_ ?_ ?_ hb
          · have hlen := length_bfsNbrs_le height width m x y (insert (x, y) visited)
            rw [List.length_append]
            simp only [List.length_cons] at hfuel
            omega
          · intro p hp
            rcases List.mem_append.1 hp with hp | hp
            · exact hq p (List.mem_cons_of_mem _ hp)
            · obtain ⟨_, hb1, hb2, _, _⟩ := mem_bfsNbrs.1 hp
              exact ⟨hb1, hb2⟩
          · intro v hv' p hadj h1 h2 h3
            rcases Finset.mem_insert.1 hv' with rfl | hv'
            · by_cases hpv : p ∈ insert ((x : Nat), (y : Nat)) visited
              · exact Or.inl hpv
              · exact Or.inr (List.mem_append_right _
                  (mem_bfsNbrs.2 ⟨hadj, h1, h2, h3, hpv⟩))
            · rcases hcl v hv' p hadj h1 h2 h3 with h | h
              · exact Or.inl (Finset.mem_insert_of_mem h)
              · rcases List.mem_cons.1 h with rfl | h
                · exact Or.inl (Finset.mem_insert_self ..)
                · exact Or.inr (List.mem_append_left _ h)
          · rcases hs with h | h
            · exact Or.inl (Finset.mem_insert_of_mem h)
            · rcases List.mem_cons.1 h with rfl | h
              · exact Or.inl (Finset.mem_insert_self ..)
              · exact Or.inr (List.mem_append_left _ h)
          · rw [Finset.mem_insert]
            push_neg
            exact ⟨fun hexy => hxe hexy.symm, he⟩

/-- `_validate_maze` decides reachability: it answers `true` exactly when
the exit is reachable from the (in-bounds) start.  In particular it answers
`true` with no traversal when the start is the exit. -/
theorem validate_maze_correct {height width : Nat} {m : Maze} {s e : Pos}
    (h1 : s.1 < height) (h2 : s.2 < width) :
    validate_maze height width m s e = true ↔ Reach height width m s e := by
  constructor
  · intro hb
    refine bfsAux_true _ _ _ (fun p hp => ?_) hb
    rcases List.mem_singleton.1 hp with rfl
    exact .refl
  · intro hr
    by_contra hb
    rw [Bool.not_eq_true] at hb
    refine bfsAux_false _ _ _ ?_ ?_ ?_ ?_ ?_ hb hr
    · rw [Finset.sdiff_empty]
      have hcard : (allPos height width).card = height * width := by
        simp [allPos, Finset.card_product]
      rw [hcard]
      simp
      omega
    · intro p hp
      rcases List.mem_singleton.1 hp with rfl
      exact ⟨h1, h2⟩
    · intro v hv
      simp at hv
    ·exact Or.inr (List.mem_singleton_self _)
    · simp

/-! ## The carving loop of `_generate_base_maze` -/

/-- Strictly inside the border: the cells `0 < i < height-1`,
`0 < j < width-1` that the source's frontier guards admit. -/
def Interior (height width : Nat) (p : Pos) : Prop :=
  1 ≤ p.1 ∧ p.1 + 1 < height ∧ 1 ≤ p.2 ∧ p.2 + 1 < width

/-- The odd/odd interior cells: the lattice over which the spanning-tree
walk operates. -/
def LatticeCell (height width : Nat) (p : Pos) : Prop :=
  Interior height width p ∧ p.1 % 2 = 1 ∧ p.2 % 2 = 1

/-- `q` is at axis distance 2 from `p` (the parent-target relation of the
frontier). -/
def Dist2 (p q : Pos) : Prop :=
  (q.1 = p.1 + 2 ∧ q.2 = p.2) ∨ (p.1 = q.1 + 2 ∧ q.2 = p.2) ∨
  (q.2 = p.2 + 2 ∧ q.1 = p.1) ∨ (p.2 = q.2 + 2 ∧ q.1 = p.1)

theorem mem_carveNbrs {height width x y : Nat} {m : Maze} {en : FrontierEntry} :
    en ∈ carveNbrs height width m x y ↔
      en.2 = (x, y) ∧ Dist2 (x, y) en.1 ∧ Interior height width en.1 ∧
        getCell m en.1.1 en.1.2 = Cell.wall := by
  obtain ⟨⟨a, b⟩, ⟨c, d⟩⟩ := en
  simp only [carveNbrs, List.mem_filterMap, carveDirs, List.mem_cons,
    List.not_mem_nil, or_false]
  constructor
  · rintro ⟨dd, hd, hf⟩
    rcases hd with rfl | rfl | rfl | rfl
    all_goals
      rw [Option.ite_none_right_eq_some, Option.some.injEq] at hf
      obtain ⟨⟨h1, h2, h3, h4, h5⟩, hp⟩ := hf
      rw [Prod.mk.injEq, Prod.mk.injEq, Prod.mk.injEq] at hp
      obtain ⟨⟨rfl, rfl⟩, rfl, rfl⟩ := hp
      refine ⟨rfl, ?_, ?_, h5⟩
      · unfold Dist2
        simp only []
        omega
      · unfold Interior
        simp only []
        omega
  · rintro ⟨hpar, hd2, hint, hwall⟩
    rw [Prod.mk.injEq] at hpar
    obtain ⟨rfl, rfl⟩ := hpar
    unfold Dist2 at hd2
    unfold Interior at hint
    simp only [] at hd2 hint
    rcases hd2 with ⟨hx, hy⟩ | ⟨hx, hy⟩ | ⟨hx, hy⟩ | ⟨hx, hy⟩
    · refine ⟨(2, 0), by simp, ?_⟩
      rw [Option.ite_none_right_eq_some, Option.some.injEq]
      have hxa : ((c : Int) + ((2 : Int), (0 : Int)).1).toNat = a := by
        simp only []
        omega
      have hyb : ((d : Int) + ((2 : Int), (0 : Int)).2).toNat = b := by
        simp only []
        omega
      rw [hxa, hyb]
      exact ⟨⟨by simp only []; omega, by simp only []; omega,
        by simp only []; omega, by simp only []; omega, hwall⟩, rfl⟩
    · refine ⟨(-2, 0), by simp, ?_⟩
      rw [Option.ite_none_right_eq_some, Option.some.injEq]
      have hxa : ((c : Int) + ((-2 : Int), (0 : Int)).1).toNat = a := by
        simp only []
        omega
      have hyb : ((d : Int) + ((-2 : Int), (0 : Int)).2).toNat = b := by
        simp only []
        omega
      rw [hxa, hyb]
      exact ⟨⟨by simp only []; omega, by simp only []; omega,
        by simp only []; omega, by simp only []; omega, hwall⟩, rfl⟩
    · refine ⟨(0, 2), by simp, ?_⟩
      rw [Option.ite_none_right_eq_some, Option.some.injEq]
      have hxa : ((c : Int) + ((0 : Int), (2 : Int)).1).toNat = a := by
        simp only []
        omega
      have hyb : ((d : Int) + ((0 : Int), (2 : Int)).2).toNat = b := by
        simp only []
        omega
      rw [hxa, hyb]
      exact ⟨⟨by simp only []; omega, by simp only []; omega,
        by simp only []; omega, by simp only []; omega, hwall⟩, rfl⟩
    · refine ⟨(0, -2), by simp, ?_⟩
      rw [Option.ite_none_right_eq_some, Option.some.injEq]
      have hxa : ((c : Int) + ((0 : Int), (-2 : Int)).1).toNat = a := by
        simp only []
        omega
      have hyb : ((d : Int) + ((0 : Int), (-2 : Int)).2).toNat = b := by
        simp only []
        omega
      rw [hxa, hyb]
      exact ⟨⟨by simp only []; omega, by simp only []; omega,
        by simp only []; omega, by simp only []; omega, hwall⟩, rfl⟩

theorem mem_carveSeeds {height width : Nat} {en : FrontierEntry} :
    en ∈ carveSeeds height width ↔
      en.2 = (1, 1) ∧ Dist2 (1, 1) en.1 ∧ Interior height width en.1 := by
  obtain ⟨⟨a, b⟩, ⟨c, d⟩⟩ := en
  simp only [carveSeeds, List.mem_filterMap, dirs4, List.mem_cons,
    List.not_mem_nil, or_false]
  constructor
  · rintro ⟨dd, hd, hf⟩
    rcases hd with rfl | rfl | rfl | rfl
    all_goals
      rw [Option.ite_none_right_eq_some, Option.some.injEq] at hf
      obtain ⟨⟨h1, h2, h3, h4⟩, hp⟩ := hf
      rw [Prod.mk.injEq, Prod.mk.injEq, Prod.mk.injEq] at hp
      obtain ⟨⟨rfl, rfl⟩, rfl, rfl⟩ := hp
      refine ⟨rfl, ?_, ?_⟩
      · unfold Dist2
        simp only []
        omega
      · unfold Interior
        simp only []
        omega
  · rintro ⟨hpar, hd2, hint⟩
    rw [Prod.mk.injEq] at hpar
    obtain ⟨rfl, rfl⟩ := hpar
    unfold Dist2 at hd2
    unfold Interior at hint
    simp only [] at hd2 hint
    rcases hd2 with ⟨hx, hy⟩ | ⟨hx, hy⟩ | ⟨hx, hy⟩ | ⟨hx, hy⟩
    · refine ⟨(1, 0), by simp, ?_⟩
      rw [Option.ite_none_right_eq_some, Option.some.injEq]
      have hxa : ((1 : Int) + ((1 : Int), (0 : Int)).1 * 2).toNat = a := by
        simp only []
        omega
      have hyb : ((1 : Int) + ((1 : Int), (0 : Int)).2 * 2).toNat = b := by
        simp only []
        omega
      rw [hxa, hyb]
      exact ⟨⟨by simp only []; omega, by simp only []; omega,
        by simp only []; omega, by simp only []; omega⟩, rfl⟩
    · omega
    · refine ⟨(0, 1), by simp, ?_⟩
      rw [Option.ite_none_right_eq_some, Option.some.injEq]
      have hxa : ((1 : Int) + ((0 : Int), (1 : Int)).1 * 2).toNat = a := by
        simp only []
        omega
      have hyb : ((1 : Int) + ((0 : Int), (1 : Int)).2 * 2).toNat = b := by
        simp only []
        omega
      rw [hxa, hyb]
      exact ⟨⟨by simp only []; omega, by simp only []; omega,
        by simp only []; omega, by simp only []; omega⟩, rfl⟩
    · omega

theorem length_carveNbrs_le (height width : Nat) (m : Maze) (x y : Nat) :
    (carveNbrs height width m x y).length ≤ 4 :=
  (List.length_filterMap_le _ _).trans (by simp [carveDirs])

/-- Geometry of the midpoint cell opened between an odd/odd parent and an
odd/odd target at axis distance 2. -/
theorem midCell_spec {height width : Nat} {en : FrontierEntry}
    (hpodd : en.2.1 % 2 = 1 ∧ en.2.2 % 2 = 1)
    (hpint : Interior height width en.2)
    (htint : Interior height width en.1)
    (hd : Dist2 en.2 en.1) :
    Interior height width (midCell en) ∧
    ((midCell en).1 % 2 = 0 ∨ (midCell en).2 % 2 = 0) ∧
    Adj en.2 (midCell en) ∧ Adj (midCell en) en.1 ∧
    ((midCell en).1 ≠ en.1.1 ∨ (midCell en).2 ≠ en.1.2) := by
  obtain ⟨⟨a, b⟩, ⟨c, d⟩⟩ := en
  unfold midCell Interior Adj Dist2 at *
  simp only [] at *
  omega

/-- The loop invariant of the carving loop.  `f` is the current frontier,
`m` the grid under construction. -/
structure CarveInv (height width : Nat) (f : List FrontierEntry) (m : Maze) : Prop where
  shape : Shape height width m
  starty : getCell m 1 1 = Cell.player
  noPlayer : ∀ i j : Nat, ¬ (i = 1 ∧ j = 1) → getCell m i j ≠ Cell.player
  noDoor : ∀ i j : Nat, getCell m i j ≠ Cell.door
  border : ∀ i j : Nat, ¬ Interior height width (i, j) → getCell m i j = Cell.wall
  reach : ∀ i j : Nat, getCell m i j ≠ Cell.wall → Reach height width m (1, 1) (i, j)
  fr : ∀ en ∈ f, LatticeCell height width en.1 ∧ en.2.1 % 2 = 1 ∧ en.2.2 % 2 = 1 ∧
    Interior height width en.2 ∧ getCell m en.2.1 en.2.2 ≠ Cell.wall ∧ Dist2 en.2 en.1
  cover : ∀ p q : Pos, LatticeCell height width p → LatticeCell height width q →
    Dist2 p q → getCell m p.1 p.2 ≠ Cell.wall → getCell m q.1 q.2 = Cell.wall →
    ∃ par : Pos, ((q, par) : FrontierEntry) ∈ f

theorem Dist2_congr_left {p p' q : Pos} (h : Dist2 p q) (h1 : p.1 = p'.1)
    (h2 : p.2 = p'.2) : Dist2 p' q := by
  unfold Dist2 at *
  omega

theorem parity_clash {a b : Nat} (ha : a % 2 = 1) (hb : b % 2 = 0) : a ≠ b := by
  omega

/-- Discarding an already-open popped entry preserves the carve invariant. -/
theorem carve_skip_inv {height width : Nat} {f : List FrontierEntry} {m : Maze}
    (inv : CarveInv height width f m) {k : Nat} (hk : k < f.length)
    (hnw : getCell m (f.get ⟨k, hk⟩).1.1 (f.get ⟨k, hk⟩).1.2 ≠ Cell.wall) :
    CarveInv height width (f.eraseIdx k) m := by
  refine ⟨inv.shape, inv.starty, inv.noPlayer, inv.noDoor, inv.border, inv.reach, ?_, ?_⟩
  · intro en hen
    exact inv.fr en ((List.eraseIdx_sublist f k).subset hen)
  · intro P Q hPl hQl hd hPnw hQw
    obtain ⟨par, hmem⟩ := inv.cover P Q hPl hQl hd hPnw hQw
    refine ⟨par, mem_eraseIdx_of_ne f k hk _ hmem ?_⟩
    intro hcontra
    have h1 : Q = (f.get ⟨k, hk⟩).1 := congrArg Prod.fst hcontra
    rw [← h1] at hnw
    exact hnw hQw

/-- Carving the popped entry's target (and the midpoint to its parent)
preserves the carve invariant and strictly decreases the number of wall
cells. -/
theorem carve_step_inv {height width : Nat} {f : List FrontierEntry} {m m2 : Maze}
    (inv : CarveInv height width f m) {k : Nat} (hk : k < f.length)
    {en : FrontierEntry} (hen_def : en = f.get ⟨k, hk⟩)
    (hw : getCell m en.1.1 en.1.2 = Cell.wall)
    (hm2_def : m2 = setCell (setCell m (midCell en).1 (midCell en).2 Cell.openC)
      en.1.1 en.1.2 Cell.openC) :
    CarveInv height width (f.eraseIdx k ++ carveNbrs height width m2 en.1.1 en.1.2) m2 ∧
    ((allPos height width).filter (fun q => getCell m2 q.1 q.2 = Cell.wall)).card + 1 ≤
      ((allPos height width).filter (fun q => getCell m q.1 q.2 = Cell.wall)).card := by
  have hen : en ∈ f := by
    rw [hen_def]
    exact List.get_mem f k hk
  obtain ⟨hlat, hp1, hp2, hpint, hpnw, hd2⟩ := inv.fr en hen
  obtain ⟨hmint, hmpar, hadjpm, hadjmt, hmnet⟩ :=
    midCell_spec ⟨hp1, hp2⟩ hpint hlat.1 hd2
  have htint : Interior height width en.1 := hlat.1
  have hlato1 : en.1.1 % 2 = 1 := hlat.2.1
  have hlato2 : en.1.2 % 2 = 1 := hlat.2.2
  have hshape1 : Shape height width (setCell m (midCell en).1 (midCell en).2 Cell.openC) :=
    shape_setCell inv.shape _ _ _
  have hshape2 : Shape height width m2 := by
    rw [hm2_def]
    exact shape_setCell hshape1 _ _ _
  have htb1 : en.1.1 < height := by
    obtain ⟨h1, h2, h3, h4⟩ := htint
    omega
  have htb2 : en.1.2 < width := by
    obtain ⟨h1, h2, h3, h4⟩ := htint
    omega
  have hmb1 : (midCell en).1 < height := by
    obtain ⟨h1, h2, h3, h4⟩ := hmint
    omega
  have hmb2 : (midCell en).2 < width := by
    obtain ⟨h1, h2, h3, h4⟩ := hmint
    omega
  have hm2_tgt : getCell m2 en.1.1 en.1.2 = Cell.openC := by
    rw [hm2_def]
    exact getCell_setCell_self hshape1 htb1 htb2 _
  have hm2_mid : getCell m2 (midCell en).1 (midCell en).2 = Cell.openC := by
    have hne : en.1.1 ≠ (midCell en).1 ∨ en.1.2 ≠ (midCell en).2 := by omega
    rw [hm2_def, getCell_setCell_ne hne _]
    exact getCell_setCell_self inv.shape hmb1 hmb2 _
  have hback : ∀ i j : Nat, ¬ (i = en.1.1 ∧ j = en.1.2) →
      ¬ (i = (midCell en).1 ∧ j = (midCell en).2) →
      getCell m2 i j = getCell m i j := by
    intro i j h1 h2
    have hne1 : en.1.1 ≠ i ∨ en.1.2 ≠ j := by omega
    have hne2 : (midCell en).1 ≠ i ∨ (midCell en).2 ≠ j := by omega
    rw [hm2_def, getCell_setCell_ne hne1 _, getCell_setCell_ne hne2 _]
  have hmono : ∀ i j : Nat, getCell m i j ≠ Cell.wall → getCell m2 i j ≠ Cell.wall := by
    intro i j h
    by_cases h1 : i = en.1.1 ∧ j = en.1.2
    · rw [h1.1, h1.2, hm2_tgt]
      simp
    · by_cases h2 : i = (midCell en).1 ∧ j = (midCell en).2
      · rw [h2.1, h2.2, hm2_mid]
        simp
      · rw [hback i j h1 h2]
        exact h
  have hmono' : ∀ i j : Nat, i < height → j < width →
      getCell m i j ≠ Cell.wall → getCell m2 i j ≠ Cell.wall :=
    fun i j _ _ h => hmono i j h
  have hreach_par : Reach height width m2 (1, 1) en.2 :=
    (inv.reach en.2.1 en.2.2 hpnw).mono hmono'
  have hreach_mid : Reach height width m2 (1, 1) (midCell en) :=
    hreach_par.step hadjpm hmb1 hmb2 (by rw [hm2_mid]; simp)
  have hreach_tgt : Reach height width m2 (1, 1) en.1 :=
    hreach_mid.step hadjmt htb1 htb2 (by rw [hm2_tgt]; simp)
  constructor
  · refine ⟨hshape2, ?_, ?_, ?_, ?_, ?_, ?_, ?_⟩
    · -- starty
      have h1 : ¬ ((1 : Nat) = en.1.1 ∧ (1 : Nat) = en.1.2) := by
        intro ⟨ha, hb⟩
        rw [← ha, ← hb] at hw
        rw [inv.starty] at hw
        cases hw
      have h2 : ¬ ((1 : Nat) = (midCell en).1 ∧ (1 : Nat) = (midCell en).2) := by
        intro ⟨ha, hb⟩
        omega
      rw [hback 1 1 h1 h2]
      exact inv.starty
    · -- noPlayer
      intro i j hne
      by_cases h1 : i = en.1.1 ∧ j = en.1.2
      · rw [h1.1, h1.2, hm2_tgt]
        simp
      · by_cases h2 : i = (midCell en).1 ∧ j = (midCell en).2
        · rw [h2.1, h2.2, hm2_mid]
          simp
        · rw [hback i j h1 h2]
          exact inv.noPlayer i j hne
    · -- noDoor
      intro i j
      by_cases h1 : i = en.1.1 ∧ j = en.1.2
      · rw [h1.1, h1.2, hm2_tgt]
        simp
      · by_cases h2 : i = (midCell en).1 ∧ j = (midCell en).2
        · rw [h2.1, h2.2, hm2_mid]
          simp
        · rw [hback i j h1 h2]
          exact inv.noDoor i j
    · -- border
      intro i j hni
      have h1 : ¬ (i = en.1.1 ∧ j = en.1.2) := by
        intro ⟨ha, hb⟩
        apply hni
        rw [ha, hb]
        exact htint
      have h2 : ¬ (i = (midCell en).1 ∧ j = (midCell en).2) := by
        intro ⟨ha, hb⟩
        apply hni
        rw [ha, hb]
        exact hmint
      rw [hback i j h1 h2]
      exact inv.border i j hni
    · -- reach
      intro i j hnw
      by_cases h1 : i = en.1.1 ∧ j = en.1.2
      · rw [h1.1, h1.2]
        exact hreach_tgt
      · by_cases h2 : i = (midCell en).1 ∧ j = (midCell en).2
        · rw [h2.1, h2.2]
          exact hreach_mid
        · rw [hback i j h1 h2] at hnw
          exact (inv.reach i j hnw).mono hmono'
    · -- fr
      intro en' hen'
      rcases List.mem_append.1 hen' with hin | hin
      · obtain ⟨ha, hb, hc, hd', he', hf'⟩ :=
          inv.fr en' ((List.eraseIdx_sublist f k).subset hin)
        exact ⟨ha, hb, hc, hd', hmono _ _ he', hf'⟩
      · obtain ⟨hpar', hd2', hint', hwall'⟩ := mem_carveNbrs.1 hin
        have hpar1 : en'.2.1 = en.1.1 := by rw [hpar']
        have hpar2 : en'.2.2 = en.1.2 := by rw [hpar']
        refine ⟨⟨hint', ?_, ?_⟩, ?_, ?_, ?_, ?_, ?_⟩
        · -- en'.1 row parity
          obtain ⟨h1, h2⟩ | ⟨h1, h2⟩ | ⟨h1, h2⟩ | ⟨h1, h2⟩ := hd2' <;> omega
        · obtain ⟨h1, h2⟩ | ⟨h1, h2⟩ | ⟨h1, h2⟩ | ⟨h1, h2⟩ := hd2' <;> omega
        · omega
        · omega
        · rw [hpar']
          exact hlat.1
        · rw [hpar1, hpar2, hm2_tgt]
          simp
        · rw [hpar']
          exact hd2'
    · -- cover
      intro P Q hPl hQl hd hPnw hQw
      have hQt : ¬ (Q.1 = en.1.1 ∧ Q.2 = en.1.2) := by
        intro ⟨ha, hb⟩
        rw [ha, hb, hm2_tgt] at hQw
        cases hQw
      have hQm : ¬ (Q.1 = (midCell en).1 ∧ Q.2 = (midCell en).2) := by
        intro ⟨ha, hb⟩
        rw [ha, hb, hm2_mid] at hQw
        cases hQw
      have hQw_old : getCell m Q.1 Q.2 = Cell.wall := by
        rw [hback Q.1 Q.2 hQt hQm] at hQw
        exact hQw
      by_cases hPt : P.1 = en.1.1 ∧ P.2 = en.1.2
      · refine ⟨(en.1.1, en.1.2), List.mem_append_right _ (mem_carveNbrs.2 ⟨rfl, ?_, hQl.1, hQw⟩)⟩
        obtain ⟨ha, hb⟩ := hPt
        exact Dist2_congr_left hd ha hb
      · by_cases hPm : P.1 = (midCell en).1 ∧ P.2 = (midCell en).2
        · exfalso
          rcases hmpar with hm | hm
          · exact parity_clash hPl.2.1 hm hPm.1
          · exact parity_clash hPl.2.2 hm hPm.2
        · rw [hback P.1 P.2 hPt hPm] at hPnw
          obtain ⟨par, hmem⟩ := inv.cover P Q hPl hQl hd hPnw hQw_old
          refine ⟨par, List.mem_append_left _ (mem_eraseIdx_of_ne f k hk _ hmem ?_)⟩
          intro hcontra
          have h1 : Q = en.1 := by
            rw [hen_def]
            exact congrArg Prod.fst hcontra
          exact hQt ⟨by rw [h1], by rw [h1]⟩
  · -- the wall count strictly decreases
    have hss : (allPos height width).filter (fun q => getCell m2 q.1 q.2 = Cell.wall) ⊂
        (allPos height width).filter (fun q => getCell m q.1 q.2 = Cell.wall) := by
      rw [Finset.ssubset_iff_of_subset]
      · refine ⟨en.1, ?_, ?_⟩
        · rw [Finset.mem_filter, mem_allPos]
          exact ⟨⟨htb1, htb2⟩, hw⟩
        · rw [Finset.mem_filter]
          intro ⟨_, hc⟩
          rw [hm2_tgt] at hc
          cases hc
      · intro q hq
        rw [Finset.mem_filter] at hq ⊢
        obtain ⟨hq1, hq2⟩ := hq
        refine ⟨hq1, ?_⟩
        have h1 : ¬ (q.1 = en.1.1 ∧ q.2 = en.1.2) := by
          intro ⟨ha, hb⟩
          rw [ha, hb, hm2_tgt] at hq2
          cases hq2
        have h2 : ¬ (q.1 = (midCell en).1 ∧ q.2 = (midCell en).2) := by
          intro ⟨ha, hb⟩
          rw [ha, hb, hm2_mid] at hq2
          cases hq2
        rw [hback q.1 q.2 h1 h2] at hq2
        exact hq2
    exact Finset.card_lt_card hss

/-- The carving loop consumes the whole frontier (the supplied fuel never
runs out first), preserves the invariant, and only appends to `_path`. -/
theorem carveAux_spec {height width : Nat} (r : RandomSource) :
    ∀ (fuel : Nat) (f : List FrontierEntry) (m : Maze) (p : List Pos) (t : Nat),
      CarveInv height width f m →
      f.length + 5 * ((allPos height width).filter
        (fun q => getCell m q.1 q.2 = Cell.wall)).card ≤ fuel →
      CarveInv height width [] (carveAux height width r fuel f m p t).1 ∧
      ∃ tail, (carveAux height width r fuel f m p t).2.1 = p ++ tail := by
  intro fuel
  induction fuel with
  | zero =>
    intro f m p t inv hfuel
    cases f with
    | nil => exact ⟨inv, [], by simp [carveAux]⟩
    | cons f0 fs =>
      simp only [List.length_cons] at hfuel
      omega
  | succ fuel ih =>
    intro f m p t inv hfuel
    cases f with
    | nil => exact ⟨inv, [], by simp [carveAux]⟩
    | cons f0 fs =>
      have hlen : r.pick t % (f0 :: fs).length < (f0 :: fs).length :=
        Nat.mod_lt _ (by simp)
      have hgetD : (f0 :: fs).getD (r.pick t % (f0 :: fs).length) ((0, 0), (0, 0)) =
          (f0 :: fs).get ⟨r.pick t % (f0 :: fs).length, hlen⟩ := by
        rw [List.getD_eq_getElem _ _ hlen]
        rfl
      simp only [carveAux, hgetD]
      by_cases hw : getCell m
          ((f0 :: fs).get ⟨r.pick t % (f0 :: fs).length, hlen⟩).1.1
          ((f0 :: fs).get ⟨r.pick t % (f0 :: fs).length, hlen⟩).1.2 = Cell.wall
      · rw [if_pos hw]
        obtain ⟨inv2, hcard⟩ := carve_step_inv inv hlen rfl hw rfl
        have h1 := List.length_eraseIdx_of_lt hlen
        have h2 := length_carveNbrs_le height width
          (setCell (setCell m
              (midCell ((f0 :: fs).get ⟨r.pick t % (f0 :: fs).length, hlen⟩)).1
              (midCell ((f0 :: fs).get ⟨r.pick t % (f0 :: fs).length, hlen⟩)).2
              Cell.openC)
            ((f0 :: fs).get ⟨r.pick t % (f0 :: fs).length, hlen⟩).1.1
            ((f0 :: fs).get ⟨r.pick t % (f0 :: fs).length, hlen⟩).1.2 Cell.openC)
          ((f0 :: fs).get ⟨r.pick t % (f0 :: fs).length, hlen⟩).1.1
          ((f0 :: fs).get ⟨r.pick t % (f0 :: fs).length, hlen⟩).1.2
        obtain ⟨hres, tail, htail⟩ := ih _ _ _ _ inv2 (by
          rw [List.length_append]
          omega)
        refine ⟨hres, [((f0 :: fs).get ⟨r.pick t % (f0 :: fs).length, hlen⟩).1] ++ tail, ?_⟩
        rw [htail, List.append_assoc]
      · rw [if_neg hw]
        have h1 := List.length_eraseIdx_of_lt hlen
        exact ih _ _ _ _ (carve_skip_inv inv hlen hw) (by omega)

theorem latticeCell_mk {height width a b : Nat} (h1 : 1 ≤ a) (h2 : a + 1 < height)
    (h3 : 1 ≤ b) (h4 : b + 1 < width) (h5 : a % 2 = 1) (h6 : b % 2 = 1) :
    LatticeCell height width (a, b) :=
  ⟨⟨h1, h2, h3, h4⟩, h5, h6⟩

/-- From the start cell every lattice cell is open once no open-wall
lattice edge remains: the odd/odd interior lattice is connected through
`(1, 1)`. -/
theorem lattice_open_of_cover {height width : Nat} {m : Maze}
    (hstart : getCell m 1 1 ≠ Cell.wall)
    (hcl : ∀ p q : Pos, LatticeCell height width p → LatticeCell height width q →
      Dist2 p q → getCell m p.1 p.2 ≠ Cell.wall → getCell m q.1 q.2 ≠ Cell.wall) :
    ∀ q : Pos, LatticeCell height width q → getCell m q.1 q.2 ≠ Cell.wall := by
  have main : ∀ n : Nat, ∀ a b : Nat, a + b = n → LatticeCell height width (a, b) →
      getCell m a b ≠ Cell.wall := by
    intro n
    induction n using Nat.strong_induction_on with
    | _ n ihn =>
      intro a b hsum hq
      obtain ⟨⟨i1, i2, i3, i4⟩, o1, o2⟩ := hq
      have j1 : 1 ≤ a := i1
      have j2 : a + 1 < height := i2
      have j3 : 1 ≤ b := i3
      have j4 : b + 1 < width := i4
      have j5 : a % 2 = 1 := o1
      have j6 : b % 2 = 1 := o2
      by_cases ha : a = 1
      · by_cases hb : b = 1
        · subst ha
          subst hb
          exact hstart
        · have hq' : LatticeCell height width (a, b - 2) :=
            latticeCell_mk j1 j2 (by omega) (by omega) j5 (by omega)
          have hprev := ihn (a + (b - 2)) (by omega) a (b - 2) rfl hq'
          have hd : Dist2 (a, b - 2) (a, b) :=
            Or.inr (Or.inr (Or.inl ⟨show b = b - 2 + 2 by omega, rfl⟩))
          exact hcl (a, b - 2) (a, b) hq'
            (latticeCell_mk j1 j2 j3 j4 j5 j6) hd hprev
      · have hq' : LatticeCell height width (a - 2, b) :=
          latticeCell_mk (by omega) (by omega) j3 j4 (by omega) j6
        have hprev := ihn ((a - 2) + b) (by omega) (a - 2) b rfl hq'
        have hd : Dist2 (a - 2, b) (a, b) :=
          Or.inl ⟨show a = a - 2 + 2 by omega, rfl⟩
        exact hcl (a - 2, b) (a, b) hq'
          (latticeCell_mk j1 j2 j3 j4 j5 j6) hd hprev
  intro q hq
  have := main (q.1 + q.2) q.1 q.2 rfl
  exact this hq

/-- What one call to `_generate_base_maze` guarantees about the grid it
leaves behind (for `3 ≤ height`, `3 ≤ width`). -/
structure BaseSpec (height width : Nat) (m : Maze) : Prop where
  shape : Shape height width m
  exitDoor : getCell m (height - 2) (width - 2) = Cell.door
  startCell : getCell m 1 1 = Cell.player ∨ getCell m 1 1 = Cell.door
  starty : ¬ (height - 2 = 1 ∧ width - 2 = 1) → getCell m 1 1 = Cell.player
  noPlayer : ∀ i j : Nat, ¬ (i = 1 ∧ j = 1) → getCell m i j ≠ Cell.player
  noDoor : ∀ i j : Nat, ¬ (i = height - 2 ∧ j = width - 2) → getCell m i j ≠ Cell.door
  border : ∀ i j : Nat, ¬ Interior height width (i, j) → getCell m i j = Cell.wall
  exitReach : height % 2 = 1 ∨ width % 2 = 1 →
    Reach height width m (1, 1) (height - 2, width - 2)

/-- The carve invariant holds when the carving loop starts: all-wall grid
with the start marked, frontier seeded from the start. -/
theorem carveInv_init {height width : Nat} (h3 : 3 ≤ height) (w3 : 3 ≤ width) :
    CarveInv height width (carveSeeds height width)
      (setCell (allWall height width) 1 1 Cell.player) := by
  have hshape : Shape height width (setCell (allWall height width) 1 1 Cell.player) :=
    shape_setCell (shape_allWall height width) _ _ _
  have hstart : getCell (setCell (allWall height width) 1 1 Cell.player) 1 1
      = Cell.player :=
    getCell_setCell_self (shape_allWall height width) (by omega) (by omega) _
  have hother : ∀ i j : Nat, ¬ (i = 1 ∧ j = 1) →
      getCell (setCell (allWall height width) 1 1 Cell.player) i j = Cell.wall := by
    intro i j hne
    rw [getCell_setCell_ne (by omega) _]
    exact getCell_allWall height width i j
  refine ⟨hshape, hstart, ?_, ?_, ?_, ?_, ?_, ?_⟩
  · intro i j hne
    rw [hother i j hne]
    simp
  · intro i j
    by_cases hne : i = 1 ∧ j = 1
    · rw [hne.1, hne.2, hstart]
      simp
    · rw [hother i j hne]
      simp
  · intro i j hni
    by_cases hne : i = 1 ∧ j = 1
    · exfalso
      apply hni
      rw [hne.1, hne.2]
      exact ⟨by omega, by omega, by omega, by omega⟩
    · exact hother i j hne
  · intro i j hnw
    by_cases hne : i = 1 ∧ j = 1
    · rw [hne.1, hne.2]
      exact .refl
    · exact absurd (hother i j hne) hnw
  · intro en hen
    obtain ⟨hpar, hd2, hint⟩ := mem_carveSeeds.1 hen
    have hpar1 : en.2.1 = 1 := by rw [hpar]
    have hpar2 : en.2.2 = 1 := by rw [hpar]
    have hd2' : (en.1.1 = 1 + 2 ∧ en.1.2 = 1) ∨ (1 = en.1.1 + 2 ∧ en.1.2 = 1) ∨
        (en.1.2 = 1 + 2 ∧ en.1.1 = 1) ∨ (1 = en.1.2 + 2 ∧ en.1.1 = 1) := hd2
    refine ⟨⟨hint, ?_, ?_⟩, by omega, by omega, ?_, ?_, ?_⟩
    · omega
    · omega
    · exact ⟨by omega, by omega, by omega, by omega⟩
    · rw [hpar1, hpar2, hstart]
      simp
    · rw [hpar]
      exact hd2
  · intro P Q hPl hQl hd hPnw hQw
    by_cases hne : P.1 = 1 ∧ P.2 = 1
    · refine ⟨(1, 1), mem_carveSeeds.2 ⟨rfl, ?_, hQl.1⟩⟩
      exact Dist2_congr_left hd hne.1 hne.2
    · exact absurd (hother P.1 P.2 hne) hPnw

/-- Specification of `_generate_base_maze`: markers, borders, and (unless
both dimensions are even) reachability of the exit; the `_path` field is
only appended to. -/
theorem generate_base_maze_spec {height width : Nat} (h3 : 3 ≤ height)
    (w3 : 3 ≤ width) (r : RandomSource) (s : GenState) :
    BaseSpec height width (generate_base_maze height width r s).maze ∧
    ∃ tail, (generate_base_maze height width r s).path = s.path ++ tail := by
  have hseedlen : (carveSeeds height width).length ≤ 4 :=
    (List.length_filterMap_le _ _).trans (by simp [dirs4])
  have hcardle : ((allPos height width).filter (fun q =>
      getCell (setCell (allWall height width) 1 1 Cell.player) q.1 q.2
        = Cell.wall)).card ≤ height * width := by
    refine (Finset.card_filter_le _ _).trans ?_
    have : (allPos height width).card = height * width := by
      simp [allPos, Finset.card_product]
    omega
  obtain ⟨hres, tail, htail⟩ := carveAux_spec r (5 * (height * width) + 4)
    (carveSeeds height width) (setCell (allWall height width) 1 1 Cell.player)
    s.path s.t (carveInv_init h3 w3) (by omega)
  simp only [generate_base_maze]
  generalize hM : carveAux height width r (5 * (height * width) + 4)
    (carveSeeds height width) (setCell (allWall height width) 1 1 Cell.player)
    s.path s.t = res
  rw [hM] at hres htail
  have hexitInt : Interior height width (height - 2, width - 2) :=
    ⟨by omega, by omega, by omega, by omega⟩
  have heb1 : height - 2 < height := by omega
  have heb2 : width - 2 < width := by omega
  constructor
  · refine ⟨?_, ?_, ?_, ?_, ?_, ?_, ?_, ?_⟩
    · exact shape_setCell hres.shape _ _ _
    · exact getCell_setCell_self hres.shape heb1 heb2 _
    · -- start cell is the player marker unless the exit overwrote it
      by_cases hne : height - 2 = 1 ∧ width - 2 = 1
      · rw [hne.1, hne.2]
        exact Or.inr (getCell_setCell_self hres.shape (by omega) (by omega) _)
      · rw [getCell_setCell_ne (by omega) _]
        exact Or.inl hres.starty
    · intro hne
      rw [getCell_setCell_ne (by omega) _]
      exact hres.starty
    · intro i j hne
      by_cases hij : i = height - 2 ∧ j = width - 2
      · rw [hij.1, hij.2, getCell_setCell_self hres.shape heb1 heb2 _]
        simp
      · rw [getCell_setCell_ne (by omega) _]
        exact hres.noPlayer i j hne
    · intro i j hne
      rw [getCell_setCell_ne (by omega) _]
      exact hres.noDoor i j
    · intro i j hni
      have hij : ¬ (i = height - 2 ∧ j = width - 2) := by
        intro ⟨ha, hb⟩
        apply hni
        rw [ha, hb]
        exact hexitInt
      rw [getCell_setCell_ne (by omega) _]
      exact hres.border i j hni
    · -- unless both dimensions are even the exit is a lattice cell or
      -- adjacent to one, and the carve opened the whole lattice
      intro hpar
      have hlatOpen := lattice_open_of_cover
        (by rw [hres.starty]; simp)
        (fun p q hp hq hd hpnw hqw => by
          obtain ⟨par, hmem⟩ := hres.cover p q hp hq hd hpnw hqw
          simp at hmem)
      have hmono : ∀ i j : Nat, i < height → j < width →
          getCell res.1 i j ≠ Cell.wall →
          getCell (setCell res.1 (height - 2) (width - 2) Cell.door) i j
            ≠ Cell.wall := by
        intro i j hi hj hnw
        by_cases hij : i = height - 2 ∧ j = width - 2
        · rw [hij.1, hij.2, getCell_setCell_self hres.shape heb1 heb2 _]
          simp
        · rw [getCell_setCell_ne (by omega) _]
          exact hnw
      have hexitNw : getCell (setCell res.1 (height - 2) (width - 2)
          Cell.door) (height - 2) (width - 2) ≠ Cell.wall := by
        rw [getCell_setCell_self hres.shape heb1 heb2 _]
        simp
      by_cases hodd1 : height % 2 = 1
      · by_cases hodd2 : width % 2 = 1
        · have hexitLat : LatticeCell height width (height - 2, width - 2) :=
            ⟨hexitInt, by omega, by omega⟩
          have hexitOpen := hlatOpen (height - 2, width - 2) hexitLat
          exact (hres.reach (height - 2) (width - 2) hexitOpen).mono hmono
        · -- height odd, width even: step in from the lattice cell (h-2, w-3)
          have hnbrLat : LatticeCell height width (height - 2, width - 3) :=
            ⟨⟨by omega, by omega, by omega, by omega⟩, by omega, by omega⟩
          have hnbrOpen := hlatOpen (height - 2, width - 3) hnbrLat
          have hreach :=
            (hres.reach (height - 2) (width - 3) hnbrOpen).mono hmono
          exact hreach.step (Or.inl ⟨rfl, Or.inl (by omega)⟩) heb1 heb2 hexitNw
      · -- height even, width odd: step in from the lattice cell (h-3, w-2)
        have hodd2 : width % 2 = 1 := by omega
        have hnbrLat : LatticeCell height width (height - 3, width - 2) :=
          ⟨⟨by omega, by omega, by omega, by omega⟩, by omega, by omega⟩
        have hnbrOpen := hlatOpen (height - 3, width - 2) hnbrLat
        have hreach :=
          (hres.reach (height - 3) (width - 2) hnbrOpen).mono hmono
        exact hreach.step (Or.inr ⟨rfl, Or.inl (by omega)⟩) heb1 heb2 hexitNw
  · exact ⟨tail, htail⟩

/-! ## The trial-and-rollback loop of `_add_safe_walls` -/

theorem getCell_setCell_self_raw {m : Maze} {i j : Nat} (hi : i < m.length)
    (hj : j < (m.getD i []).length) (c : Cell) :
    getCell (setCell m i j c) i j = c := by
  unfold getCell setCell
  rw [getD_set_self _ _ (by simpa using hi), getD_set_self _ _ hj]

/-- A write either leaves a cell unchanged or makes it the written value
(also covering out-of-range writes). -/
theorem getCell_setCell_cases (m : Maze) (x y i j : Nat) (c : Cell) :
    getCell (setCell m x y c) i j = getCell m i j ∨
    getCell (setCell m x y c) i j = c := by
  by_cases hxy : x = i ∧ y = j
  · by_cases hi : x < m.length
    · by_cases hj : y < (m.getD x []).length
      · right
        rw [← hxy.1, ← hxy.2]
        exact getCell_setCell_self_raw hi hj c
      · left
        unfold setCell
        rw [List.set_eq_of_length_le (show (m.getD x []).length ≤ y by omega),
          set_getD_self _ _ hi]
    · left
      unfold setCell
      rw [List.set_eq_of_length_le (by omega)]
  · left
    exact getCell_setCell_ne (by omega) c

/-- The rollback loop preserves a passing connectivity check: each kept
wall was individually validated and each failing wall is restored. -/
theorem addWallsLoop_validate {height width : Nat} {s e : Pos} {wc : Nat} :
    ∀ (l : List Pos) (m : Maze) (a : Nat),
      validate_maze height width m s e = true →
      validate_maze height width (addWallsLoop height width s e wc l m a).1 s e
        = true := by
  intro l
  induction l with
  | nil => exact fun m a hm => hm
  | cons xy rest ih =>
    intro m a hm
    obtain ⟨x, y⟩ := xy
    simp only [addWallsLoop]
    by_cases hstop : wc ≤ a
    · rw [if_pos hstop]
      exact hm
    · rw [if_neg hstop]
      by_cases hv : validate_maze height width (setCell m x y Cell.wall) s e = true
      · rw [if_pos hv]
        exact ih _ _ hv
      · rw [if_neg hv, setCell_setCell_restore]
        exact ih _ _ hm

/-- The loop never counts more walls than `wall_count`. -/
theorem addWallsLoop_count {height width : Nat} {s e : Pos} {wc : Nat} :
    ∀ (l : List Pos) (m : Maze) (a : Nat), a ≤ wc →
      (addWallsLoop height width s e wc l m a).2 ≤ wc := by
  intro l
  induction l with
  | nil => exact fun m a ha => ha
  | cons xy rest ih =>
    intro m a ha
    obtain ⟨x, y⟩ := xy
    simp only [addWallsLoop]
    by_cases hstop : wc ≤ a
    · rw [if_pos hstop]
      exact ha
    · rw [if_neg hstop]
      by_cases hv : validate_maze height width (setCell m x y Cell.wall) s e = true
      · rw [if_pos hv]
        exact ih _ _ (by omega)
      · rw [if_neg hv]
        exact ih _ _ ha

/-- Every cell the loop leaves behind is either its original value or a
wall. -/
theorem addWallsLoop_getCell {height width : Nat} {s e : Pos} {wc : Nat} :
    ∀ (l : List Pos) (m : Maze) (a : Nat) (i j : Nat),
      getCell (addWallsLoop height width s e wc l m a).1 i j = getCell m i j ∨
      getCell (addWallsLoop height width s e wc l m a).1 i j = Cell.wall := by
  intro l
  induction l with
  | nil => exact fun m a i j => Or.inl rfl
  | cons xy rest ih =>
    intro m a i j
    obtain ⟨x, y⟩ := xy
    simp only [addWallsLoop]
    by_cases hstop : wc ≤ a
    · rw [if_pos hstop]
      exact Or.inl rfl
    · rw [if_neg hstop]
      by_cases hv : validate_maze height width (setCell m x y Cell.wall) s e = true
      · rw [if_pos hv]
        rcases ih (setCell m x y Cell.wall) (a + 1) i j with h | h
        · rcases getCell_setCell_cases m x y i j Cell.wall with h2 | h2
          · exact Or.inl (h.trans h2)
          · exact Or.inr (h.trans h2)
        · exact Or.inr h
      · rw [if_neg hv, setCell_setCell_restore]
        exact ih m a i j

/-- Cells that never appear in the candidate list are untouched. -/
theorem addWallsLoop_untouched {height width : Nat} {s e : Pos} {wc : Nat} :
    ∀ (l : List Pos) (m : Maze) (a : Nat) (i j : Nat),
      (∀ q ∈ l, q ≠ ((i, j) : Pos)) →
      getCell (addWallsLoop height width s e wc l m a).1 i j = getCell m i j := by
  intro l
  induction l with
  | nil => exact fun m a i j _ => rfl
  | cons xy rest ih =>
    intro m a i j hl
    obtain ⟨x, y⟩ := xy
    have hxy : ¬ (x = i ∧ y = j) := by
      intro ⟨ha, hb⟩
      exact hl (x, y) (List.mem_cons_self _ _) (by rw [ha, hb])
    simp only [addWallsLoop]
    by_cases hstop : wc ≤ a
    · rw [if_pos hstop]
    · rw [if_neg hstop]
      by_cases hv : validate_maze height width (setCell m x y Cell.wall) s e = true
      · rw [if_pos hv, ih _ _ i j (fun q hq => hl q (List.mem_cons_of_mem _ hq))]
        exact getCell_setCell_ne (by omega) _
      · rw [if_neg hv, setCell_setCell_restore]
        exact ih _ _ i j (fun q hq => hl q (List.mem_cons_of_mem _ hq))

theorem addWallsLoop_shape {height width : Nat} {s e : Pos} {wc : Nat} :
    ∀ (l : List Pos) (m : Maze) (a : Nat), Shape height width m →
      Shape height width (addWallsLoop height width s e wc l m a).1 := by
  intro l
  induction l with
  | nil => exact fun m a hs => hs
  | cons xy rest ih =>
    intro m a hs
    obtain ⟨x, y⟩ := xy
    simp only [addWallsLoop]
    by_cases hstop : wc ≤ a
    · rw [if_pos hstop]
      exact hs
    · rw [if_neg hstop]
      by_cases hv : validate_maze height width (setCell m x y Cell.wall) s e = true
      · rw [if_pos hv]
        exact ih _ _ (shape_setCell hs _ _ _)
      · rw [if_neg hv, setCell_setCell_restore]
        exact ih _ _ hs

theorem mem_wallCandidates {height width : Nat} {m : Maze} {path : List Pos}
    {q : Pos} :
    q ∈ wallCandidates height width m path ↔
      1 ≤ q.1 ∧ q.1 < height - 1 ∧ 1 ≤ q.2 ∧ q.2 < width - 1 ∧
        getCell m q.1 q.2 = Cell.openC ∧ q ∉ path := by
  obtain ⟨a, b⟩ := q
  simp only [wallCandidates, List.mem_flatMap, List.mem_filterMap,
    List.mem_range'_1]
  constructor
  · rintro ⟨i, hi, j, hj, hf⟩
    rw [Option.ite_none_right_eq_some, Option.some.injEq] at hf
    obtain ⟨⟨hcell, hpath⟩, hq⟩ := hf
    rw [Prod.mk.injEq] at hq
    obtain ⟨rfl, rfl⟩ := hq
    exact ⟨by omega, by omega, by omega, by omega, hcell, hpath⟩
  · rintro ⟨h1, h2, h3, h4, hcell, hpath⟩
    refine ⟨a, by omega, b, by omega, ?_⟩
    rw [Option.ite_none_right_eq_some, Option.some.injEq]
    exact ⟨⟨hcell, hpath⟩, rfl⟩

/-! ## The deterministic fallback `_generate_fallback_maze` -/

theorem setCell_oob {height width : Nat} {m : Maze} (hs : Shape height width m)
    {x y : Nat} (h : height ≤ x ∨ width ≤ y) (c : Cell) : setCell m x y c = m := by
  have hlen := hs.1
  rcases h with h | h
  · unfold setCell
    rw [List.set_eq_of_length_le (by omega)]
  · by_cases hx : x < m.length
    · unfold setCell
      rw [List.set_eq_of_length_le
        (show (m.getD x []).length ≤ y by rw [shape_row hs (by omega)]; omega),
        set_getD_self _ _ hx]
    · unfold setCell
      rw [List.set_eq_of_length_le (by omega)]

/-- One row of the comb loop, over an arbitrary column list. -/
theorem getCell_colsFold {height width : Nat} (i0 : Nat) :
    ∀ (cols : List Nat) (m : Maze), Shape height width m → ∀ i j : Nat,
      getCell (cols.foldl (fun m j =>
          if i0 % 2 = 1 ∧ j % 2 = 1 then setCell m i0 j Cell.openC else m) m) i j =
        (if i = i0 ∧ j ∈ cols ∧ i0 % 2 = 1 ∧ j % 2 = 1 ∧ i0 < height ∧ j < width
          then Cell.openC
          else getCell m i j) := by
  intro cols
  induction cols with
  | nil =>
    intro m hs i j
    simp
  | cons c rest ih =>
    intro m hs i j
    rw [List.foldl_cons]
    by_cases hc : i0 % 2 = 1 ∧ c % 2 = 1
    · rw [if_pos hc, ih _ (shape_setCell hs _ _ _) i j]
      by_cases hA : i = i0 ∧ j ∈ rest ∧ i0 % 2 = 1 ∧ j % 2 = 1 ∧ i0 < height ∧ j < width
      · rw [if_pos hA, if_pos ⟨hA.1, List.mem_cons_of_mem _ hA.2.1, hA.2.2⟩]
      · rw [if_neg hA]
        by_cases hB : i = i0 ∧ j = c ∧ i0 < height ∧ j < width
        · rw [if_pos ⟨hB.1, by rw [hB.2.1]; exact List.mem_cons_self _ _,
            hc.1, by rw [hB.2.1]; exact hc.2, hB.2.2⟩]
          rw [hB.1, ← hB.2.1]
          exact getCell_setCell_self hs hB.2.2.1 hB.2.2.2 _
        · have hRHS : ¬ (i = i0 ∧ j ∈ c :: rest ∧ i0 % 2 = 1 ∧ j % 2 = 1 ∧
              i0 < height ∧ j < width) := by
            intro ⟨ha, hmem, hp1, hp2, hb1, hb2⟩
            rcases List.mem_cons.1 hmem with rfl | hmem
            · exact hB ⟨ha, rfl, hb1, hb2⟩
            · exact hA ⟨ha, hmem, hp1, hp2, hb1, hb2⟩
          rw [if_neg hRHS]
          by_cases hne : i0 = i ∧ c = j
          · -- the write is at (i, j) but it must be out of bounds
            have hoob : height ≤ i0 ∨ width ≤ c := by
              by_contra hcon
              push_neg at hcon
              exact hB ⟨hne.1.symm, hne.2.symm, hcon.1, by omega⟩
            rw [setCell_oob hs hoob]
          · exact getCell_setCell_ne (by omega) _
    · rw [if_neg hc, ih _ hs i j]
      by_cases hA : i = i0 ∧ j ∈ rest ∧ i0 % 2 = 1 ∧ j % 2 = 1 ∧ i0 < height ∧ j < width
      · rw [if_pos hA, if_pos ⟨hA.1, List.mem_cons_of_mem _ hA.2.1, hA.2.2⟩]
      · rw [if_neg hA]
        have hRHS : ¬ (i = i0 ∧ j ∈ c :: rest ∧ i0 % 2 = 1 ∧ j % 2 = 1 ∧
            i0 < height ∧ j < width) := by
          intro ⟨ha, hmem, hp1, hp2, hb1, hb2⟩
          rcases List.mem_cons.1 hmem with rfl | hmem
          · exact hc ⟨hp1, hp2⟩
          · exact hA ⟨ha, hmem, hp1, hp2, hb1, hb2⟩
        rw [if_neg hRHS]

theorem colsFold_shape {height width : Nat} (i0 : Nat) :
    ∀ (cols : List Nat) (m : Maze), Shape height width m →
      Shape height width (cols.foldl (fun m j =>
        if i0 % 2 = 1 ∧ j % 2 = 1 then setCell m i0 j Cell.openC else m) m) := by
  intro cols
  induction cols with
  | nil => exact fun m hs => hs
  | cons c rest ih =>
    intro m hs
    rw [List.foldl_cons]
    by_cases hc : i0 % 2 = 1 ∧ c % 2 = 1
    · rw [if_pos hc]
      exact ih _ (shape_setCell hs _ _ _)
    · rw [if_neg hc]
      exact ih _ hs

theorem combFold_shape {height width : Nat} :
    ∀ (rows : List Nat) (m : Maze), Shape height width m →
      Shape height width (combFold width rows m) := by
  intro rows
  induction rows with
  | nil => exact fun m hs => hs
  | cons r rest ih =>
    intro m hs
    unfold combFold at *
    rw [List.foldl_cons]
    exact ih _ (colsFold_shape r _ m hs)

/-- Full characterization of the comb double loop. -/
theorem getCell_combFold {height width : Nat} :
    ∀ (rows : List Nat) (m : Maze), Shape height width m → ∀ i j : Nat,
      getCell (combFold width rows m) i j =
        (if i ∈ rows ∧ 1 ≤ j ∧ j + 1 < width ∧ i % 2 = 1 ∧ j % 2 = 1 ∧ i < height
          then Cell.openC
          else getCell m i j) := by
  intro rows
  induction rows with
  | nil =>
    intro m hs i j
    simp [combFold]
  | cons r rest ih =>
    intro m hs i j
    unfold combFold at *
    rw [List.foldl_cons, ih _ (colsFold_shape r _ m hs) i j]
    by_cases hA : i ∈ rest ∧ 1 ≤ j ∧ j + 1 < width ∧ i % 2 = 1 ∧ j % 2 = 1 ∧ i < height
    · rw [if_pos hA, if_pos ⟨List.mem_cons_of_mem _ hA.1, hA.2⟩]
    · rw [if_neg hA, getCell_colsFold r _ m hs i j]
      by_cases hB : i = r ∧ j ∈ List.range' 1 (width - 2) ∧ r % 2 = 1 ∧ j % 2 = 1 ∧
          r < height ∧ j < width
      · rw [if_pos hB]
        have hmem := List.mem_range'_1.1 hB.2.1
        rw [if_pos ⟨by rw [hB.1]; exact List.mem_cons_self _ _, by omega,
          by omega, by rw [hB.1]; exact hB.2.2.1, by omega, by rw [hB.1]; exact hB.2.2.2.2.1⟩]
      · rw [if_neg hB]
        have hRHS : ¬ (i ∈ r :: rest ∧ 1 ≤ j ∧ j + 1 < width ∧ i % 2 = 1 ∧
            j % 2 = 1 ∧ i < height) := by
          intro ⟨hmem, h1, h2, h3, h4, h5⟩
          rcases List.mem_cons.1 hmem with rfl | hmem
          · exact hB ⟨rfl, List.mem_range'_1.2 (by omega), h3, h4, h5, by omega⟩
          · exact hA ⟨hmem, h1, h2, h3, h4, h5⟩
        rw [if_neg hRHS]

/-- Full pointwise characterization of `_generate_fallback_maze`: the exit
marker, then the start marker, then the forced odd/odd interior cells;
every other cell keeps the value the failed attempts left there. -/
theorem fallback_cell {height width : Nat} {s : GenState}
    (h3 : 3 ≤ height) (w3 : 3 ≤ width)
    (hs : Shape height width s.maze) (i j : Nat) :
    getCell (generate_fallback_maze height width s).maze i j =
      (if i = height - 2 ∧ j = width - 2 then Cell.door
       else if i = 1 ∧ j = 1 then Cell.player
       else if 1 ≤ i ∧ i + 1 < height ∧ 1 ≤ j ∧ j + 1 < width ∧
          i % 2 = 1 ∧ j % 2 = 1 then Cell.openC
       else getCell s.maze i j) := by
  have hcomb := combFold_shape (List.range' 1 (height - 2)) s.maze hs
  have hshape2 : Shape height width
      (setCell (combFold width (List.range' 1 (height - 2)) s.maze) 1 1 Cell.player) :=
    shape_setCell hcomb _ _ _
  simp only [generate_fallback_maze]
  by_cases hexit : i = height - 2 ∧ j = width - 2
  · rw [if_pos hexit, hexit.1, hexit.2]
    exact getCell_setCell_self hshape2 (by omega) (by omega) _
  · rw [if_neg hexit, getCell_setCell_ne (by omega) _]
    by_cases hstart : i = 1 ∧ j = 1
    · rw [if_pos hstart, hstart.1, hstart.2]
      exact getCell_setCell_self hcomb (by omega) (by omega) _
    · rw [if_neg hstart, getCell_setCell_ne (by omega) _,
        getCell_combFold (List.range' 1 (height - 2)) s.maze hs i j]
      by_cases hcombc : 1 ≤ i ∧ i + 1 < height ∧ 1 ≤ j ∧ j + 1 < width ∧
          i % 2 = 1 ∧ j % 2 = 1
      · rw [if_pos hcombc,
          if_pos ⟨List.mem_range'_1.2 (by omega), by omega, by omega,
            hcombc.2.2.2.2.1, hcombc.2.2.2.2.2, by omega⟩]
      · rw [if_neg hcombc]
        have hno : ¬ (i ∈ List.range' 1 (height - 2) ∧ 1 ≤ j ∧ j + 1 < width ∧
            i % 2 = 1 ∧ j % 2 = 1 ∧ i < height) := by
          intro ⟨hmem, h1, h2, h3, h4, h5⟩
          have := List.mem_range'_1.1 hmem
          exact hcombc ⟨by omega, by omega, by omega, by omega, h3, h4⟩
        rw [if_neg hno]

/-! ## Assembling `generate` -/

/-- Facts preserved across failed attempts (they hold of any grid a failed
attempt leaves behind). -/
structure OutInv (height width : Nat) (m : Maze) : Prop where
  shape : Shape height width m
  noPlayer : ∀ i j : Nat, ¬ (i = 1 ∧ j = 1) → getCell m i j ≠ Cell.player
  noDoor : ∀ i j : Nat, ¬ (i = height - 2 ∧ j = width - 2) → getCell m i j ≠ Cell.door
  border : ∀ i j : Nat, ¬ Interior height width (i, j) → getCell m i j = Cell.wall

/-- Facts about the grid `generate` hands to the caller. -/
structure OutSpec (height width : Nat) (m : Maze) : Prop where
  shape : Shape height width m
  exitDoor : getCell m (height - 2) (width - 2) = Cell.door
  starty : ¬ (height - 2 = 1 ∧ width - 2 = 1) → getCell m 1 1 = Cell.player
  noPlayer : ∀ i j : Nat, ¬ (i = 1 ∧ j = 1) → getCell m i j ≠ Cell.player
  noDoor : ∀ i j : Nat, ¬ (i = height - 2 ∧ j = width - 2) → getCell m i j ≠ Cell.door
  border : ∀ i j : Nat, ¬ Interior height width (i, j) → getCell m i j = Cell.wall

theorem OutSpec.toOutInv {height width : Nat} {m : Maze}
    (h : OutSpec height width m) : OutInv height width m :=
  ⟨h.shape, h.noPlayer, h.noDoor, h.border⟩

theorem BaseSpec.toOutSpec {height width : Nat} {m : Maze}
    (h : BaseSpec height width m) : OutSpec height width m :=
  ⟨h.shape, h.exitDoor, h.starty, h.noPlayer, h.noDoor, h.border⟩

/-- `_add_safe_walls` run on a freshly carved grid preserves all the output
facts: the markers are never candidates (they are not open cells), every
write is a wall or a rollback. -/
theorem add_safe_walls_out {height width : Nat} {d : ℚ} {r : RandomSource}
    (hlaw : r.Lawful) {m : Maze} (hbase : BaseSpec height width m)
    (path : List Pos) (t : Nat) :
    OutSpec height width
      (add_safe_walls height width (1, 1) (height - 2, width - 2) d r m path t).1 := by
  simp only [add_safe_walls]
  have hshuf : ∀ q : Pos, q ∈ r.shuffle t (wallCandidates height width m path) →
      getCell m q.1 q.2 = Cell.openC := by
    intro q hq
    exact (mem_wallCandidates.1 (((hlaw t _).mem_iff).1 hq)).2.2.2.2.1
  have h11 : ∀ q ∈ r.shuffle t (wallCandidates height width m path),
      q ≠ ((1, 1) : Pos) := by
    intro q hq hcontra
    have := hshuf q hq
    rw [hcontra] at this
    rcases hbase.startCell with h | h <;> rw [h] at this <;> cases this
  have hex : ∀ q ∈ r.shuffle t (wallCandidates height width m path),
      q ≠ ((height - 2, width - 2) : Pos) := by
    intro q hq hcontra
    have := hshuf q hq
    rw [hcontra] at this
    rw [hbase.exitDoor] at this
    cases this
  refine ⟨addWallsLoop_shape _ _ _ hbase.shape, ?_, ?_, ?_, ?_, ?_⟩
  · rw [addWallsLoop_untouched _ _ _ _ _ hex]
    exact hbase.exitDoor
  · intro hne
    rw [addWallsLoop_untouched _ _ _ _ _ h11]
    exact hbase.starty hne
  · intro i j hne
    rcases addWallsLoop_getCell (r.shuffle t (wallCandidates height width m path))
      m 0 i j with h | h
    · rw [h]
      exact hbase.noPlayer i j hne
    · rw [h]
      simp
  · intro i j hne
    rcases addWallsLoop_getCell (r.shuffle t (wallCandidates height width m path))
      m 0 i j with h | h
    · rw [h]
      exact hbase.noDoor i j hne
    · rw [h]
      simp
  · intro i j hni
    rcases addWallsLoop_getCell (r.shuffle t (wallCandidates height width m path))
      m 0 i j with h | h
    · rw [h]
      exact hbase.border i j hni
    · exact h

/-- `_generate_fallback_maze` establishes the output facts from the
residual invariant. -/
theorem fallback_out {height width : Nat} (h3 : 3 ≤ height) (w3 : 3 ≤ width)
    {s : GenState} (hinv : OutInv height width s.maze) :
    OutSpec height width (generate_fallback_maze height width s).maze := by
  have hcell := fun i j => fallback_cell (s := s) h3 w3 hinv.shape i j
  refine ⟨?_, ?_, ?_, ?_, ?_, ?_⟩
  · simp only [generate_fallback_maze]
    exact shape_setCell (shape_setCell (combFold_shape _ _ hinv.shape) _ _ _) _ _ _
  · rw [hcell (height - 2) (width - 2), if_pos ⟨rfl, rfl⟩]
  · intro hne
    rw [hcell 1 1, if_neg (by omega), if_pos ⟨rfl, rfl⟩]
  · intro i j hne
    rw [hcell i j]
    by_cases h1 : i = height - 2 ∧ j = width - 2
    · rw [if_pos h1]
      simp
    · rw [if_neg h1, if_neg hne]
      by_cases h2 : 1 ≤ i ∧ i + 1 < height ∧ 1 ≤ j ∧ j + 1 < width ∧
          i % 2 = 1 ∧ j % 2 = 1
      · rw [if_pos h2]
        simp
      · rw [if_neg h2]
        exact hinv.noPlayer i j hne
  · intro i j hne
    rw [hcell i j, if_neg hne]
    by_cases h1 : i = 1 ∧ j = 1
    · rw [if_pos h1]
      simp
    · rw [if_neg h1]
      by_cases h2 : 1 ≤ i ∧ i + 1 < height ∧ 1 ≤ j ∧ j + 1 < width ∧
          i % 2 = 1 ∧ j % 2 = 1
      · rw [if_pos h2]
        simp
      · rw [if_neg h2]
        exact hinv.noDoor i j hne
  · intro i j hni
    rw [hcell i j, if_neg (by
        intro ⟨ha, hb⟩
        apply hni
        rw [ha, hb]
        exact ⟨by omega, by omega, by omega, by omega⟩),
      if_neg (by
        intro ⟨ha, hb⟩
        apply hni
        rw [ha, hb]
        exact ⟨by omega, by omega, by omega, by omega⟩),
      if_neg (by
        intro ⟨h1, h2, h3', h4, h5, h6⟩
        exact hni ⟨h1, h2, h3', h4⟩)]
    exact hinv.border i j hni

/-- Every grid `generate`'s attempt loop returns satisfies the output
facts. -/
theorem generateLoop_spec {height width : Nat} (h3 : 3 ≤ height)
    (w3 : 3 ≤ width) {d : ℚ} {r : RandomSource} (hlaw : r.Lawful) :
    ∀ (n : Nat) (s : GenState), OutInv height width s.maze →
      OutSpec height width (generateLoop height width d r n s).1 := by
  intro n
  induction n with
  | zero =>
    intro s hinv
    simp only [generateLoop]
    exact fallback_out h3 w3 hinv
  | succ n ih =>
    intro s hinv
    simp only [generateLoop]
    generalize hs1 : generate_base_maze height width r s = s1
    have hbase := (generate_base_maze_spec h3 w3 r s).1
    rw [hs1] at hbase
    by_cases hv1 : validate_maze height width s1.maze (1, 1)
        (height - 2, width - 2) = true
    · rw [if_pos hv1]
      generalize hW : add_safe_walls height width (1, 1) (height - 2, width - 2)
        d r s1.maze s1.path s1.t = W
      have hwalls := add_safe_walls_out hlaw hbase s1.path s1.t (d := d)
      rw [hW] at hwalls
      by_cases hv2 : validate_maze height width W.1 (1, 1)
          (height - 2, width - 2) = true
      · rw [if_pos hv2]
        exact hwalls
      · rw [if_neg hv2]
        exact ih _ hwalls.toOutInv
    · rw [if_neg hv1]
      exact ih _ hbase.toOutSpec.toOutInv

theorem outInv_init (height width : Nat) :
    OutInv height width (allWall height width) := by
  refine ⟨shape_allWall height width, ?_, ?_, ?_⟩
  · intro i j _
    rw [getCell_allWall]
    simp
  · intro i j _
    rw [getCell_allWall]
    simp
  · intro i j _
    exact getCell_allWall height width i j

/-- The grid `generate` returns satisfies the output facts. -/
theorem generate_out {height width : Nat} (h3 : 3 ≤ height) (w3 : 3 ≤ width)
    (d : ℚ) {r : RandomSource} (hlaw : r.Lawful) :
    OutSpec height width (generate height width d r) :=
  generateLoop_spec h3 w3 hlaw 10 _ (outInv_init height width)

/-- Unless both dimensions are even, the very first attempt already
validates (the carve always connects the odd/odd lattice and the exit
lies on it or right next to it), so the attempt loop returns a grid that
passes `_validate_maze`. -/
theorem generateLoop_succ_validate {height width : Nat} (h3 : 3 ≤ height)
    (w3 : 3 ≤ width) (hpar : height % 2 = 1 ∨ width % 2 = 1)
    {d : ℚ} {r : RandomSource} (n : Nat) (s : GenState) :
    validate_maze height width (generateLoop height width d r (n + 1) s).1
      (1, 1) (height - 2, width - 2) = true := by
  simp only [generateLoop]
  generalize hs1 : generate_base_maze height width r s = s1
  have hbase := (generate_base_maze_spec h3 w3 r s).1
  rw [hs1] at hbase
  have hv1 : validate_maze height width s1.maze (1, 1) (height - 2, width - 2)
      = true :=
    (validate_maze_correct (by omega) (by omega)).2 (hbase.exitReach hpar)
  rw [if_pos hv1]
  generalize hW : add_safe_walls height width (1, 1) (height - 2, width - 2)
    d r s1.maze s1.path s1.t = W
  have hv2 : validate_maze height width W.1 (1, 1) (height - 2, width - 2)
      = true := by
    rw [← hW]
    simp only [add_safe_walls]
    exact addWallsLoop_validate _ _ _ hv1
  rw [if_pos hv2]
  exact hv2

theorem generate_parity_validate {height width : Nat} (h3 : 3 ≤ height)
    (w3 : 3 ≤ width) (hpar : height % 2 = 1 ∨ width % 2 = 1)
    (d : ℚ) (r : RandomSource) :
    validate_maze height width (generate height width d r) (1, 1)
      (height - 2, width - 2) = true :=
  generateLoop_succ_validate h3 w3 hpar 9
    { maze := allWall height width, path := [], t := 0 }

/-- The carving loop only ever appends to `_path`. -/
theorem carveAux_path {height width : Nat} (r : RandomSource) :
    ∀ (fuel : Nat) (f : List FrontierEntry) (m : Maze) (p : List Pos) (t : Nat),
      ∃ tail, (carveAux height width r fuel f m p t).2.1 = p ++ tail := by
  intro fuel
  induction fuel with
  | zero => exact fun f m p t => ⟨[], by simp [carveAux]⟩
  | succ fuel ih =>
    intro f m p t
    cases f with
    | nil => exact ⟨[], by simp [carveAux]⟩
    | cons f0 fs =>
      simp only [carveAux]
      split
      · obtain ⟨tail, htail⟩ := ih _ _
          (p ++ [((f0 :: fs).getD (r.pick t % (f0 :: fs).length) ((0, 0), (0, 0))).1])
          (t + 1)
        exact ⟨[((f0 :: fs).getD (r.pick t % (f0 :: fs).length) ((0, 0), (0, 0))).1]
            ++ tail,
          by rw [← List.append_assoc]; exact htail⟩
      · exact ih _ _ _ _

theorem wallCount_le_candidates {n : Nat} {d : ℚ} (hd1 : d ≤ 1) :
    ((((n : Nat) : ℚ) * d).floor).toNat ≤ n := by
  have h1 : ((n : ℚ) * d) ≤ (n : ℚ) := by
    calc (n : ℚ) * d ≤ (n : ℚ) * 1 := mul_le_mul_of_nonneg_left hd1 (by positivity)
      _ = (n : ℚ) := mul_one _
  have h2 := Int.floor_le_floor h1
  rw [Int.floor_natCast] at h2
  exact Int.toNat_le.2 h2

/-! ## The claims -/

/-- C1, as stated, is false: at the even size 10×10 (within the claimed
range `width, height ≥ 9`) every carve attempt leaves the exit cell
`(8, 8)` sealed off (its row and column are off the odd/odd lattice), all
ten attempts fail validation, and `generate` returns the fallback grid, in
which the exit is unreachable from the start. -/
theorem C1_cex_even_size_unreachable :
    validate_maze 10 10 (generate 10 10 0 rng0) (1, 1) (8, 8) = false ∧
    ¬ Reach 10 10 (generate 10 10 0 rng0) (1, 1) (8, 8) := by
  have h : validate_maze 10 10 (generate 10 10 0 rng0) (1, 1) (8, 8) = false := by
    decide
  refine ⟨h, fun hr => ?_⟩
  have h2 := (validate_maze_correct (by omega) (by omega)).2 hr
  rw [h] at h2
  cases h2

/-- C1 (amended): excluding only the even-by-even sizes (where the
counterexample lives), the claim holds: for every `width, height ≥ 9` not
both even, every difficulty in `[0, 1]` and every behaviour of the random
source, the grid returned by `generate` has the exit `(height-2, width-2)`
reachable from the start `(1, 1)` through non-wall cells and vice versa —
the carve always opens the whole odd/odd lattice, and the exit lies on it
or directly next to one of its cells. -/
theorem C1_amended_mutual_reach {height width : Nat} {d : ℚ}
    {r : RandomSource} (h9 : 9 ≤ height) (w9 : 9 ≤ width)
    (hpar : ¬ (height % 2 = 0 ∧ width % 2 = 0))
    (hd0 : 0 ≤ d) (hd1 : d ≤ 1) (hlaw : r.Lawful) :
    Reach height width (generate height width d r) (1, 1)
      (height - 2, width - 2) ∧
    Reach height width (generate height width d r) (height - 2, width - 2)
      (1, 1) := by
  have hv := generate_parity_validate (show 3 ≤ height by omega)
    (show 3 ≤ width by omega)
    (show height % 2 = 1 ∨ width % 2 = 1 by omega) d r
  have hs1 : ((1, 1) : Pos).1 < height := by
    show 1 < height
    omega
  have hs2 : ((1, 1) : Pos).2 < width := by
    show 1 < width
    omega
  have hre : Reach height width (generate height width d r) (1, 1)
      (height - 2, width - 2) :=
    (validate_maze_correct hs1 hs2).1 hv
  have hstart : getCell (generate height width d r) 1 1 = Cell.player :=
    (generate_out (show 3 ≤ height by omega) (show 3 ≤ width by omega) d
      hlaw).starty (by omega)
  refine ⟨hre, hre.rev (by omega) (by omega) ?_⟩
  rw [hstart]
  simp

theorem C1_amended_witness :
    ¬ ((9 : Nat) % 2 = 0 ∧ (10 : Nat) % 2 = 0) ∧ rng0.Lawful ∧
    Reach 9 10 (generate 9 10 0 rng0) (1, 1) (7, 8) ∧
    Reach 9 10 (generate 9 10 0 rng0) (7, 8) (1, 1) :=
  ⟨by omega, fun t l => List.Perm.refl l,
    (C1_amended_mutual_reach (by omega) (by omega) (by omega)
      (le_refl 0) (by norm_num) (fun t l => List.Perm.refl l)).1,
    (C1_amended_mutual_reach (by omega) (by omega) (by omega)
      (le_refl 0) (by norm_num) (fun t l => List.Perm.refl l)).2⟩

/-- C2: the code is wrong and the claim (backed by the docstring
`生成保底迷宫（完全连通）`, "generate fallback maze (fully connected)") is
right in intent.  The comb pattern opens only isolated odd/odd cells and
no connecting midpoints, so at 4×4 the fallback grid — both the one built
from a pristine all-wall grid and the one `generate` actually returns
after its ten failed attempts — has the exit `(2, 2)` sealed off from the
start `(1, 1)`. -/
theorem C2_fallback_disconnected_4x4 :
    validate_maze 4 4 ((generate_fallback_maze 4 4
        { maze := allWall 4 4, path := [], t := 0 }).maze) (1, 1) (2, 2) = false ∧
    validate_maze 4 4 (generate 4 4 0 rng0) (1, 1) (2, 2) = false := by
  decide

/-- C3, as stated, is false: the fallback does not reset the grid, so the
cells the failed attempts carved stay open.  In the 6×6 run with the
all-zeros random source, `generate` exhausts its ten attempts and returns
the fallback grid, in which the corridor cell `(2, 1)` — neither odd/odd
interior, nor the start, nor the exit — is open rather than a wall. -/
theorem C3_cex_leftover_open_cell :
    getCell (generate 6 6 0 rng0) 2 1 = Cell.openC ∧
    ¬ ((2 : Nat) % 2 = 1 ∧ (1 : Nat) % 2 = 1) ∧
    ((2, 1) : Pos) ≠ (1, 1) ∧ ((2, 1) : Pos) ≠ (4, 4) := by
  decide

/-- C3 (amended): the fallback grid forces the exit marker, the start
marker and every interior odd/odd cell open, and leaves EVERY OTHER cell
exactly as the failed attempts left it (rather than a wall). -/
theorem C3_amended_fallback_cells {height width : Nat} {s : GenState}
    (h3 : 3 ≤ height) (w3 : 3 ≤ width) (hs : Shape height width s.maze)
    (i j : Nat) :
    getCell (generate_fallback_maze height width s).maze i j =
      (if i = height - 2 ∧ j = width - 2 then Cell.door
       else if i = 1 ∧ j = 1 then Cell.player
       else if 1 ≤ i ∧ i + 1 < height ∧ 1 ≤ j ∧ j + 1 < width ∧
          i % 2 = 1 ∧ j % 2 = 1 then Cell.openC
       else getCell s.maze i j) :=
  fallback_cell h3 w3 hs i j

theorem C3_amended_witness :
    (3 : Nat) ≤ 6 ∧ Shape 6 6 (allWall 6 6) ∧
    getCell (generate_fallback_maze 6 6
        { maze := allWall 6 6, path := [], t := 0 }).maze 3 3 =
      (if (3 : Nat) = 6 - 2 ∧ (3 : Nat) = 6 - 2 then Cell.door
       else if (3 : Nat) = 1 ∧ (3 : Nat) = 1 then Cell.player
       else if 1 ≤ (3 : Nat) ∧ (3 : Nat) + 1 < 6 ∧ 1 ≤ (3 : Nat) ∧
          (3 : Nat) + 1 < 6 ∧ (3 : Nat) % 2 = 1 ∧ (3 : Nat) % 2 = 1
        then Cell.openC
       else getCell (allWall 6 6) 3 3) :=
  ⟨by omega, ⟨by decide, by decide⟩,
    C3_amended_fallback_cells (by omega) (by omega) ⟨by decide, by decide⟩ 3 3⟩

/-- C4: obstacle injection preserves connectivity.  For every grid in
which the exit is reachable from the start through non-wall cells, any
difficulty and any behaviour of the random source (hence any shuffle
order), the exit is still reachable after `_add_safe_walls`: every
tentative wall that breaks reachability is rolled back. -/
theorem C4_add_safe_walls_preserves_reach {height width : Nat} {m : Maze}
    {s e : Pos} (hs1 : s.1 < height) (hs2 : s.2 < width)
    (d : ℚ) (r : RandomSource) (path : List Pos) (t : Nat)
    (hre : Reach height width m s e) :
    Reach height width (add_safe_walls height width s e d r m path t).1 s e := by
  have hv := (validate_maze_correct hs1 hs2).2 hre
  have hv2 : validate_maze height width
      (add_safe_walls height width s e d r m path t).1 s e = true := by
    simp only [add_safe_walls]
    exact addWallsLoop_validate _ _ _ hv
  exact (validate_maze_correct hs1 hs2).1 hv2

theorem C4_witness :
    (1 : Nat) < 4 ∧
    Reach 4 4 (add_safe_walls 4 4 (1, 1) (2, 2) (1 / 2) rng0
      [[Cell.wall, Cell.wall, Cell.wall, Cell.wall],
       [Cell.wall, Cell.openC, Cell.openC, Cell.wall],
       [Cell.wall, Cell.wall, Cell.openC, Cell.wall],
       [Cell.wall, Cell.wall, Cell.wall, Cell.wall]] [] 0).1 (1, 1) (2, 2) :=
  ⟨by omega,
    C4_add_safe_walls_preserves_reach (by omega) (by omega) _ _ _ _
      (Reach.step (q := (2, 2))
        (Reach.step (q := (1, 2)) Reach.refl (by decide) (by decide) (by decide)
          (by decide))
        (by decide) (by decide) (by decide) (by decide))⟩

/-- C5, as stated, is false at 3×3 (within the claimed range
`width, height ≥ 3`): there the exit `(1, 1)` coincides with the start and
the exit marker overwrites the start marker, so the returned grid has no
PlayerStart cell at all. -/
theorem C5_cex_3x3_no_player :
    getCell (generate 3 3 0 rng0) 1 1 ≠ Cell.player ∧
    getCell (generate 3 3 0 rng0) 1 1 = Cell.door := by
  decide

/-- C5 (amended): excluding only the degenerate 3×3 size (where start and
exit coincide), the grid returned by `generate` has the PlayerStart marker
exactly at `(1, 1)` and the ExitDoor marker exactly at
`(height-2, width-2)`, for every difficulty in `[0, 1]` and every
behaviour of the random source. -/
theorem C5_amended_unique_markers {height width : Nat} {d : ℚ}
    {r : RandomSource} (h3 : 3 ≤ height) (w3 : 3 ≤ width)
    (hne : ¬ (height = 3 ∧ width = 3)) (hd0 : 0 ≤ d) (hd1 : d ≤ 1)
    (hlaw : r.Lawful) (i j : Nat) :
    getCell (generate height width d r) 1 1 = Cell.player ∧
    getCell (generate height width d r) (height - 2) (width - 2) = Cell.door ∧
    (¬ (i = 1 ∧ j = 1) → getCell (generate height width d r) i j ≠ Cell.player) ∧
    (¬ (i = height - 2 ∧ j = width - 2) →
      getCell (generate height width d r) i j ≠ Cell.door) := by
  have hout := generate_out h3 w3 d hlaw
  exact ⟨hout.starty (by omega), hout.exitDoor, hout.noPlayer i j,
    hout.noDoor i j⟩

theorem C5_amended_witness :
    (3 : Nat) ≤ 4 ∧ ¬ ((4 : Nat) = 3 ∧ (4 : Nat) = 3) ∧ rng0.Lawful ∧
    (getCell (generate 4 4 0 rng0) 1 1 = Cell.player ∧
     getCell (generate 4 4 0 rng0) (4 - 2) (4 - 2) = Cell.door ∧
     (¬ ((2 : Nat) = 1 ∧ (2 : Nat) = 1) →
       getCell (generate 4 4 0 rng0) 2 2 ≠ Cell.player) ∧
     (¬ ((2 : Nat) = 4 - 2 ∧ (2 : Nat) = 4 - 2) →
       getCell (generate 4 4 0 rng0) 2 2 ≠ Cell.door)) :=
  ⟨by omega, by omega, fun t l => List.Perm.refl l,
    C5_amended_unique_markers (by omega) (by omega) (by omega) (le_refl 0)
      (by norm_num) (fun t l => List.Perm.refl l) 2 2⟩

/-- C6: `_validate_maze` answers `true` exactly when the exit is reachable
from the (in-bounds) start by 4-directional steps through non-wall cells,
and in particular answers `true` immediately when the start equals the
exit. -/
theorem C6_validate_decides_reach {height width : Nat} {m : Maze} {s e : Pos}
    (hs1 : s.1 < height) (hs2 : s.2 < width) :
    (validate_maze height width m s e = true ↔ Reach height width m s e) ∧
    (s = e → validate_maze height width m s e = true) :=
  ⟨validate_maze_correct hs1 hs2,
    fun hse => (validate_maze_correct hs1 hs2).2 (hse ▸ Reach.refl)⟩

theorem C6_witness :
    (0 : Nat) < 2 ∧
    Reach 2 2 [[Cell.player, Cell.openC], [Cell.wall, Cell.door]] (0, 0) (1, 1) ∧
    validate_maze 3 3 (allWall 3 3) (2, 2) (2, 2) = true :=
  ⟨by omega,
    (C6_validate_decides_reach (by omega) (by omega)).1.1 (by decide),
    (C6_validate_decides_reach (by omega) (by omega)).2 rfl⟩

/-- C7: for every difficulty in `[0, 1]` and every candidate list (any
grid, path and shuffle), the number of obstacles `_add_safe_walls` counts
as placed is at most `⌊candidateCount × difficulty⌋`, and therefore never
exceeds the number of candidate cells. -/
theorem C7_wall_budget {height width : Nat} {s e : Pos} {d : ℚ}
    (r : RandomSource) (m : Maze) (path : List Pos) (t : Nat)
    (hd0 : 0 ≤ d) (hd1 : d ≤ 1) :
    (add_safe_walls height width s e d r m path t).2.1 ≤
      ((((wallCandidates height width m path).length : ℚ) * d).floor).toNat ∧
    (add_safe_walls height width s e d r m path t).2.1 ≤
      (wallCandidates height width m path).length := by
  have h1 : (add_safe_walls height width s e d r m path t).2.1 ≤
      ((((wallCandidates height width m path).length : ℚ) * d).floor).toNat := by
    simp only [add_safe_walls]
    exact addWallsLoop_count _ _ _ (Nat.zero_le _)
  exact ⟨h1, h1.trans (wallCount_le_candidates hd1)⟩

theorem C7_witness :
    (0 : ℚ) ≤ 1 / 2 ∧ (1 / 2 : ℚ) ≤ 1 ∧
    (add_safe_walls 9 9 (1, 1) (7, 7) (1 / 2) rng0 (generate 9 9 0 rng0)
        [] 0).2.1 ≤
      ((((wallCandidates 9 9 (generate 9 9 0 rng0) []).length : ℚ)
        * (1 / 2)).floor).toNat ∧
    (add_safe_walls 9 9 (1, 1) (7, 7) (1 / 2) rng0 (generate 9 9 0 rng0)
        [] 0).2.1 ≤ (wallCandidates 9 9 (generate 9 9 0 rng0) []).length :=
  ⟨by norm_num, by norm_num,
    (C7_wall_budget rng0 (generate 9 9 0 rng0) [] 0 (by norm_num)
      (by norm_num)).1,
    (C7_wall_budget rng0 (generate 9 9 0 rng0) [] 0 (by norm_num)
      (by norm_num)).2⟩

/-- C8: `generate` is total — embedded with fuel that is proved never to
bind — performs exactly the ten-attempt loop before the deterministic
fallback, and always hands the caller a `height × width` grid, for every
difficulty in `[0, 1]` and every behaviour of the random source. -/
theorem C8_generate_total {height width : Nat} {d : ℚ} {r : RandomSource}
    (h3 : 3 ≤ height) (w3 : 3 ≤ width) (hd0 : 0 ≤ d) (hd1 : d ≤ 1)
    (hlaw : r.Lawful) :
    generate height width d r = (generateLoop height width d r 10
      { maze := allWall height width, path := [], t := 0 }).1 ∧
    (generate height width d r).length = height ∧
    ∀ row ∈ generate height width d r, row.length = width := by
  have hout := generate_out h3 w3 d hlaw
  exact ⟨rfl, hout.shape.1, hout.shape.2⟩

theorem C8_witness :
    (3 : Nat) ≤ 3 ∧ rng0.Lawful ∧
    (generate 3 3 0 rng0).length = 3 ∧
    ∀ row ∈ generate 3 3 0 rng0, row.length = 3 :=
  ⟨by omega, fun t l => List.Perm.refl l,
    (C8_generate_total (by omega) (by omega) (le_refl 0) (by norm_num)
      (fun t l => List.Perm.refl l)).2.1,
    (C8_generate_total (by omega) (by omega) (le_refl 0) (by norm_num)
      (fun t l => List.Perm.refl l)).2.2⟩

/-- C9, as stated, is false: `self._path` is created once in `__init__`
and never cleared, so each base-carve attempt starts with the previous
attempts' coordinates still recorded.  In the 6×6 run with the all-zeros
random source all ten attempts fail, and the final path holds the
coordinate `(3, 1)` ten times even though a single fresh carve records it
once. -/
theorem C9_cex_path_accumulates :
    ((generateS 6 6 0 rng0).2.path.count ((3, 1) : Pos) = 10) ∧
    ((generate_base_maze 6 6 rng0
        { maze := allWall 6 6, path := [], t := 0 }).path.count
      ((3, 1) : Pos) = 1) := by
  decide

/-- C9 (amended): the PathSet is not rebuilt per attempt;
`_generate_base_maze` only appends this attempt's opened coordinates to
whatever the earlier attempts left in `self._path`. -/
theorem C9_amended_path_appends (height width : Nat) (r : RandomSource)
    (s : GenState) :
    ∃ tail, (generate_base_maze height width r s).path = s.path ++ tail := by
  simp only [generate_base_maze]
  exact carveAux_path r _ _ _ _ _

/-- C10: every border cell of the grid returned by `generate` is a wall:
carving, obstacle injection and the fallback only write to strictly
interior cells (and obstacle writes are walls anyway). -/
theorem C10_border_walls {height width : Nat} {d : ℚ} {r : RandomSource}
    (h3 : 3 ≤ height) (w3 : 3 ≤ width) (hd0 : 0 ≤ d) (hd1 : d ≤ 1)
    (hlaw : r.Lawful) (i j : Nat)
    (hb : i = 0 ∨ i = height - 1 ∨ j = 0 ∨ j = width - 1)
    (hi : i < height) (hj : j < width) :
    getCell (generate height width d r) i j = Cell.wall := by
  refine (generate_out h3 w3 d hlaw).border i j ?_
  intro hInt
  have a1 : 1 ≤ i := hInt.1
  have a2 : i + 1 < height := hInt.2.1
  have a3 : 1 ≤ j := hInt.2.2.1
  have a4 : j + 1 < width := hInt.2.2.2
  omega

theorem C10_witness :
    ((0 : Nat) = 0 ∨ (0 : Nat) = 4 - 1 ∨ (2 : Nat) = 0 ∨ (2 : Nat) = 4 - 1) ∧
    rng0.Lawful ∧
    getCell (generate 4 4 0 rng0) 0 2 = Cell.wall :=
  ⟨Or.inl rfl, fun t l => List.Perm.refl l,
    C10_border_walls (by omega) (by omega) (le_refl 0) (by norm_num)
      (fun t l => List.Perm.refl l) 0 2 (Or.inl rfl) (by omega) (by omega)⟩

